import Mathlib

/-!
Verification of the linear-chain CRF implementation in `src/crf.py`
(class `LinearCRF`).  The Python code is shallowly embedded: machine
floats become real numbers, numpy arrays become functions `ℕ → ℝ` or
lists, the `feature_index` / `index_feature` dictionaries become a
position-indexed enumeration list, and dictionary lookups that may raise
`KeyError` return `Option`.
-/

namespace LinearCRF

/-- Number of tags, `self.ntags = 4` ({B, I, E, S}). -/
def ntags : ℕ := 4

/-- `self.start_index = tag_index['S'] = 3`. -/
def startIdx : ℕ := 3

/-- `self.end_index = tag_index['S'] = 3`. -/
def endIdx : ℕ := 3

/-- `self.index_tag = {0:'B', 1:'I', 2:'E', 3:'S'}`. -/
def index_tag (t : ℕ) : Char :=
  if t = 0 then 'B' else if t = 1 then 'I' else if t = 2 then 'E' else 'S'

/-- `self.U_feature_pos = [-2, -1, 0, 1, 2]`. -/
def uFeaturePos : List ℤ := [-2, -1, 0, 1, 2]

/-- `self.B_feature_pos = [0]`. -/
def bFeaturePos : List ℤ := [0]

/-- Feature template keys: `('U', pos, word, tag)` and
`('B', pos, word, tag1, tag2)`. -/
inductive Feature where
  | U (pos : ℤ) (word : ℕ) (tag : ℕ)
  | B (pos : ℤ) (word : ℕ) (tag1 : ℕ) (tag2 : ℕ)
deriving DecidableEq

/-- The feature enumeration performed by `train` (lines 355-371): all
unigram features (outer loop over `U_feature_pos`, then words, then tags),
followed by all bigram features, each inserted into the dictionaries in
this order.  Position `k` of this list is the feature with id `k`. -/
def uFeatureList (nw : ℕ) : List Feature :=
  uFeaturePos.flatMap fun pos =>
    (List.range nw).flatMap fun wd =>
      (List.range 4).map fun t => Feature.U pos wd t

/-- The bigram block of the enumeration (lines 364-371). -/
def bFeatureList (nw : ℕ) : List Feature :=
  bFeaturePos.flatMap fun pos =>
    (List.range nw).flatMap fun wd =>
      (List.range 4).flatMap fun t1 =>
        (List.range 4).map fun t2 => Feature.B pos wd t1 t2

/-- The full enumeration: unigram features first, then bigram features. -/
def featureList (nw : ℕ) : List Feature := uFeatureList nw ++ bFeatureList nw

/-- `self.nfeatures` after enumeration. -/
def nfeatures (nw : ℕ) : ℕ := (featureList nw).length

/-- The dictionary `self.feature_index : feature → id`; `none` models a
`KeyError` on a missing key. -/
def feature_index (nw : ℕ) (f : Feature) : Option ℕ :=
  (featureList nw).findIdx? fun g => decide (g = f)

/-- The dictionary `self.index_feature : id → feature`. -/
def index_feature (nw : ℕ) (k : ℕ) : Option Feature :=
  (featureList nw)[k]?

/-- `feature_at(self, k, x, yi_1, yi, i)` (lines 65-89): the 0/1 value of
the `k`-th indicator feature.  `x.getD j 0` embeds the in-bounds numpy
indexing `x[i + pos]` (the guards keep every access made by a claim in
bounds). -/
def feature_at (nw : ℕ) (k : ℕ) (x : List ℕ) (yi_1 yi : ℕ) (i : ℕ) : ℕ :=
  match index_feature nw k with
  | some (Feature.U pos word tag) =>
      if 0 ≤ pos + (i : ℤ) ∧ pos + (i : ℤ) ≤ (x.length : ℤ) - 1 ∧ yi = tag ∧
          x.getD (pos + (i : ℤ)).toNat 0 = word then 1 else 0
  | some (Feature.B pos word tag1 tag2) =>
      if 1 ≤ pos + (i : ℤ) ∧ x.getD (pos + (i : ℤ)).toNat 0 = word ∧
          yi_1 = tag1 ∧ yi = tag2 then 1 else 0
  | none => 0

/-- The unigram keys looked up by `log_potential_at` (lines 96-98):
`('U', pos, x[pos + i], yi)` for every `pos` with `0 ≤ pos + i < len(x)`. -/
def activeKeysU (x : List ℕ) (yi : ℕ) (i : ℕ) : List Feature :=
  (uFeaturePos.filter fun pos =>
      decide (0 ≤ pos + (i : ℤ) ∧ pos + (i : ℤ) < (x.length : ℤ))).map
    fun pos => Feature.U pos (x.getD (pos + (i : ℤ)).toNat 0) yi

/-- The bigram keys looked up by `log_potential_at` (lines 100-102):
`('B', pos, x[pos + i], yi_1, yi)` for every `pos` with `1 ≤ pos + i < len(x)`. -/
def activeKeysB (x : List ℕ) (yi_1 yi : ℕ) (i : ℕ) : List Feature :=
  (bFeaturePos.filter fun pos =>
      decide (1 ≤ pos + (i : ℤ) ∧ pos + (i : ℤ) < (x.length : ℤ))).map
    fun pos => Feature.B pos (x.getD (pos + (i : ℤ)).toNat 0) yi_1 yi

/-- All keys appended into `activate_feature`, unigrams then bigrams. -/
def activeKeys (x : List ℕ) (yi_1 yi : ℕ) (i : ℕ) : List Feature :=
  activeKeysU x yi i ++ activeKeysB x yi_1 yi i

/-- The id list `activate_feature` built by `log_potential_at`; `none`
models the `KeyError` raised when some key is absent from
`self.feature_index`. -/
def activeIds (nw : ℕ) (x : List ℕ) (yi_1 yi : ℕ) (i : ℕ) : Option (List ℕ) :=
  (activeKeys x yi_1 yi i).mapM (feature_index nw)

/-- `log_potential_at(self, x, yi_1, yi, i)` (lines 92-103):
`self.weights[activate_feature].sum()`; `none` models the `KeyError` on a
missing feature key. -/
def log_potential_at (nw : ℕ) (w : ℕ → ℝ) (x : List ℕ) (yi_1 yi : ℕ) (i : ℕ) :
    Option ℝ :=
  (activeIds nw x yi_1 yi i).map fun ids => (ids.map w).sum

/-- `log_potential_matrix(self, x)` (lines 106-118): the tensor entry
`M[i, a, b] = log_potential_at(x, a, b, i)`, filled for
`1 ≤ i ≤ len(x) - 1` and tags `a, b < 4`, zero elsewhere (`M(0)` means
nothing).  Under the in-vocabulary hypotheses of the claims every filled
entry's lookup succeeds, so `getD 0` is exact there. -/
def log_potential_matrix (nw : ℕ) (w : ℕ → ℝ) (x : List ℕ) :
    ℕ → ℕ → ℕ → ℝ := fun i a b =>
  if 1 ≤ i ∧ i ≤ x.length - 1 ∧ a < 4 ∧ b < 4 then
    (log_potential_at nw w x a b i).getD 0
  else 0

/-- `np.max(arr)` over a nonempty float vector (0 on the empty list). -/
def listMax : List ℝ → ℝ
  | [] => 0
  | a :: l => l.foldl max a

/-- `log_sum_exp(self, arr)` (lines 121-123):
`max_value + np.log(np.sum(np.exp(arr - max_value)))`. -/
noncomputable def log_sum_exp (l : List ℝ) : ℝ :=
  listMax l + Real.log ((l.map fun v => Real.exp (v - listMax l)).sum)

/-- The 4-vector `[g 0, g 1, g 2, g 3]` (one row of a numpy tag array). -/
def vec4 (g : ℕ → ℝ) : List ℝ := [g 0, g 1, g 2, g 3]

/-- `log_sum_exp` applied to a 4-entry tag vector, as in the forward and
backward recurrences. -/
noncomputable def lse4 (g : ℕ → ℝ) : ℝ := log_sum_exp (vec4 g)

/-- `np.max` of a 4-entry tag vector, as reduced by `inference_viterbi`. -/
noncomputable def max4 (g : ℕ → ℝ) : ℝ := max (max (max (g 0) (g 1)) (g 2)) (g 3)

/-- `np.argmax` of a 4-entry tag vector: the first (lowest) index attaining
the maximum. -/
noncomputable def argmax4 (g : ℕ → ℝ) : ℕ :=
  if g 0 = max4 g then 0
  else if g 1 = max4 g then 1
  else if g 2 = max4 g then 2
  else 3

/-- The `delta` table of `inference_viterbi` (lines 211-228):
`delta[1] = M[1, start_index, :]`,
`delta[i, tag] = np.max(delta[i-1] + M[i, :, tag])` for `i ≥ 2`;
`delta[0]` stays at its `np.zeros` value. -/
noncomputable def log_delta (M : ℕ → ℕ → ℕ → ℝ) : ℕ → ℕ → ℝ
  | 0, _ => 0
  | 1, t => M 1 startIdx t
  | (i + 2), t => max4 fun u => log_delta M (i + 1) u + M (i + 2) u t

/-- The `trace` table: `trace[i, tag] = np.argmax(delta[i-1] + M[i, :, tag])`. -/
noncomputable def vtrace (M : ℕ → ℕ → ℕ → ℝ) (i t : ℕ) : ℕ :=
  argmax4 fun u => log_delta M (i - 1) u + M i u t

/-- The backtrace of `inference_viterbi` (lines 230-238), indexed by the
distance `k` from the right end: `btrace M n k` is the decoded tag at
position `n - k` (`best = np.argmax(delta[n])` at `k = 0`, then
`best = trace[index + 1][best]` walking left). -/
noncomputable def btrace (M : ℕ → ℕ → ℕ → ℝ) (n : ℕ) : ℕ → ℕ
  | 0 => argmax4 (log_delta M n)
  | (k + 1) => vtrace M (n - k) (btrace M n k)

/-- The decoded tag-id path `[y_1, ..., y_n]` recovered by the backtrace. -/
noncomputable def viterbiTags (M : ℕ → ℕ → ℕ → ℝ) (n : ℕ) : List ℕ :=
  (List.range n).map fun j => btrace M n (n - (j + 1))

/-- The suffix of the decoded path holding the tags of positions
`n - k + 1 .. n` (used to walk the backtrace inductively). -/
noncomputable def tagsFrom (M : ℕ → ℕ → ℕ → ℝ) (n : ℕ) : ℕ → List ℕ
  | 0 => []
  | (k + 1) => btrace M n k :: tagsFrom M n k

/-- What `np.argmax` guarantees on a 4-vector: a maximizing index that is
lowest among all maximizing indices (the stable tie-break). -/
def isFirstArgmax4 (g : ℕ → ℝ) (j : ℕ) : Prop :=
  j < 4 ∧ (∀ u < 4, g u ≤ g j) ∧ ∀ u < 4, (∀ v < 4, g v ≤ g u) → j ≤ u

/-- `inference_viterbi(self, x, M)` (lines 211-239): the decoded path as
symbolic tag characters (`y_char`), aligned to the unsentineled input. -/
noncomputable def inference_viterbi (nw : ℕ) (w : ℕ → ℝ) (x : List ℕ) :
    List Char :=
  (viterbiTags (log_potential_matrix nw w x) (x.length - 2)).map index_tag

/-- `log_alpha(self, x, M)` (lines 126-148): forward log probabilities.
`alpha[0]` stays at its `np.zeros` value, `alpha[1] = M[1, start_index, :]`,
and `alpha[i, tag] = log_sum_exp(alpha[i-1] + M[i, :, tag])` for `i ≥ 2`.
The recursion is stated for every `i`; the code fills indices up to
`len(x) - 2` and the claims only consult those. -/
noncomputable def log_alpha (M : ℕ → ℕ → ℕ → ℝ) : ℕ → ℕ → ℝ
  | 0, _ => 0
  | 1, t => M 1 startIdx t
  | (i + 2), t => lse4 fun u => log_alpha M (i + 1) u + M (i + 2) u t

/-- Helper for `log_beta`: the backward value at position `n - k`, indexed
by the distance `k` from the right end. -/
noncomputable def betaAux (M : ℕ → ℕ → ℕ → ℝ) (n : ℕ) : ℕ → ℕ → ℝ
  | 0, t => M (n + 1) t endIdx
  | (k + 1), t => lse4 fun u => betaAux M n k u + M (n - k) t u

/-- `log_beta(self, x, M)` (lines 151-174): `beta[n] = M[n+1, :, end_index]`,
`beta[i, tag] = log_sum_exp(beta[i+1] + M[i+1, tag, :])` for
`1 ≤ i < n`, and `beta[0]` keeps its `np.zeros` value (for `n ≥ 1`). -/
noncomputable def log_beta (M : ℕ → ℕ → ℕ → ℝ) (n i : ℕ) (t : ℕ) : ℝ :=
  if i = n ∨ (1 ≤ i ∧ i < n) then betaAux M n (n - i) t else 0

/-- `log_z(self, x, M, alpha)` (lines 177-188):
`log_sum_exp(alpha[n] + M[n+1, :, end_index])` with `n = len(x) - 2`. -/
noncomputable def log_z (M : ℕ → ℕ → ℕ → ℝ) (n : ℕ) : ℝ :=
  lse4 fun t => log_alpha M n t + M (n + 1) t endIdx

/-- `log_potential(self, x, y, M, alpha)` (lines 191-208):
`sum_{i=1..len(y)-2} log_potential_at(x, y[i-1], y[i], i) - log_z(x)`. -/
noncomputable def log_potential (nw : ℕ) (w : ℕ → ℝ) (x y : List ℕ) : ℝ :=
  ((List.range (y.length - 2)).map fun j =>
    (log_potential_at nw w x (y.getD j 0) (y.getD (j + 1) 0) (j + 1)).getD 0).sum
  - log_z (log_potential_matrix nw w x) (x.length - 2)

/-- All `4 ^ n` interior tag paths (tags in `{0, 1, 2, 3}`) of length `n`,
the brute-force enumeration used by the normalization and Viterbi claims. -/
def allPaths : ℕ → List (List ℕ)
  | 0 => [[]]
  | n + 1 => (allPaths n).flatMap fun p => (List.range 4).map fun t => p ++ [t]

/-- Total transition potential of a path: `transSum M i0 prev p` is
`M i0 prev p₀ + M (i0+1) p₀ p₁ + ⋯`, so `transSum M 1 startIdx p` is the
unnormalized score `Σ_{i=1..n} M[i, y[i-1], y[i]]` of the bracketed path
`startIdx :: p`. -/
noncomputable def transSum (M : ℕ → ℕ → ℕ → ℝ) : ℕ → ℕ → List ℕ → ℝ
  | _, _, [] => 0
  | i0, prev, t :: rest => M i0 prev t + transSum M (i0 + 1) t rest

/-- The probability table of `model_gradient_x` (lines 258-269) **after**
the whole-array exponentiation `P = np.exp(P)`: entries filled by the loop
hold `exp(alpha[i-1, a] + M[i, a, b] + beta[i, b] - z)`; entries skipped by
the `continue` (position `1` with `a ≠ start_index`) and all never-written
entries hold `exp(0) = 1`. -/
noncomputable def Pmat (nw : ℕ) (w : ℕ → ℝ) (x : List ℕ) (i a b : ℕ) : ℝ :=
  Real.exp
    (if (1 ≤ i ∧ i ≤ x.length - 2) ∧ ¬(i = 1 ∧ a ≠ startIdx) then
      log_alpha (log_potential_matrix nw w x) (i - 1) a +
        log_potential_matrix nw w x i a b +
        log_beta (log_potential_matrix nw w x) (x.length - 2) i b -
        log_z (log_potential_matrix nw w x) (x.length - 2)
    else 0)

/-- The iteration triples `(i, yi_1, yi)` of the accumulation loop of
`model_gradient_x` (lines 271-281), in source order: `i` from 1 to `n`,
then `yi_1` in 0..3, then `yi` in 0..3. -/
def gradTriples (n : ℕ) : List (ℕ × ℕ × ℕ) :=
  (List.range n).flatMap fun i0 =>
    (List.range 4).flatMap fun a =>
      (List.range 4).map fun b => (i0 + 1, a, b)

/-- One iteration of the accumulation loop of `model_gradient_x`
(lines 271-281).  `activate_feature` is initialized once **before** the
triple loop (line 270) and only grows, so iteration `(i, yi_1, yi)`
appends its keys and then executes
`gradient[activate_feature] += P[i, yi_1, yi]`, which with numpy fancy
indexing adds the value once per *distinct* id currently in the list.
The state is the pair (current id list, current gradient). -/
noncomputable def gradStep (nw : ℕ) (w : ℕ → ℝ) (x : List ℕ)
    (st : List ℕ × (ℕ → ℝ)) (iab : ℕ × ℕ × ℕ) : List ℕ × (ℕ → ℝ) :=
  let acc := st.1 ++ (activeIds nw x iab.2.1 iab.2.2 iab.1).getD []
  (acc, fun f => st.2 f +
    if f ∈ acc then Pmat nw w x iab.1 iab.2.1 iab.2.2 else 0)

/-- `model_gradient_x(self, x, ...)` (lines 242-283): fold `gradStep` over
the iteration triples starting from the empty id list and zero gradient. -/
noncomputable def model_gradient_x (nw : ℕ) (w : ℕ → ℝ) (x : List ℕ) :
    ℕ → ℝ :=
  (List.foldl (gradStep nw w x) ([], fun _ => 0)
    (gradTriples (x.length - 2))).2

/-- `model_gradient(self)` (lines 296-302):
`gradient = prior_feature_count - weights * theta`, then
`gradient -= model_gradient_x(x)` for every training sequence. -/
noncomputable def model_gradient (nw : ℕ) (w : ℕ → ℝ) (prior : ℕ → ℝ)
    (theta : ℝ) (data : List (List ℕ × List ℕ)) : ℕ → ℝ :=
  fun f => prior f - w f * theta -
    (data.map fun xy => model_gradient_x nw w xy.1 f).sum

/-- One run of the external optimizer (`scipy.optimize.minimize`,
crf.py:413).  Per the spec contract it returns a final vector `x` and a
`success` flag; but it is handed `self.ncallable` and `self.njac_callable`
as its objective and gradient, and each evaluation of those executes
`self.weights = weights` (lines 308, 315).  `evals` records the
(otherwise unspecified) sequence of points the optimizer evaluated the
callables at, in order, so the weight state it leaves behind is the last
entry of `evals` (or the state before the run if it never evaluated). -/
structure OptResult where
  evals : List (ℕ → ℝ)
  x : ℕ → ℝ
  success : Bool

/-- `ncallable` / `njac_callable` (lines 305-316) assign
`self.weights = weights`: the weight state after a call is its argument. -/
def ncallable_weights (w : ℕ → ℝ) : ℕ → ℝ := w

/-- The tail of `train` (lines 404-421): evaluate `ncallable` and
`njac_callable` once at the initial weights (each sets `self.weights` to
its argument), run the optimizer — whose every callback evaluation again
sets `self.weights` to the evaluated point — then
`if res.success: self.weights = res.x; self.save()` else print a failure
message (nothing restores `self.weights` on failure).  The result triple
is (final `self.weights`, artifact written by `save`, failure reported). -/
def train_tail (w0 : ℕ → ℝ) (res : OptResult) :
    (ℕ → ℝ) × Option (ℕ → ℝ) × Bool :=
  let w1 := ncallable_weights w0
  let w2 := ncallable_weights w1
  let w3 := res.evals.foldl (fun _ p => ncallable_weights p) w2
  if res.success then (res.x, some res.x, false) else (w3, none, true)

/-- Weight vector of the C1 counterexample: weight 1 on feature id 31 — the
unigram `('U', 0, end_sentinel_word, tag 'S')` over a 3-word vocabulary —
and 0 elsewhere. -/
noncomputable def wC1 : ℕ → ℝ := fun k => if k = 31 then 1 else 0

lemma sum_map_exp_pos (l : List ℝ) (h : l ≠ []) : 0 < (l.map Real.exp).sum := by
  cases l with
  | nil => simp at h
  | cons a t =>
    simp only [List.map_cons, List.sum_cons]
    have ht : 0 ≤ (t.map Real.exp).sum := by
      apply List.sum_nonneg
      intro y hy
      simp only [List.mem_map] at hy
      obtain ⟨v, _, rfl⟩ := hy
      exact (Real.exp_pos v).le
    have ha := Real.exp_pos a
    linarith

lemma log_sum_exp_eq (l : List ℝ) (h : l ≠ []) :
    log_sum_exp l = Real.log ((l.map Real.exp).sum) := by
  unfold log_sum_exp
  have hmap : (l.map fun v => Real.exp (v - listMax l)) =
      l.map fun v => Real.exp v * (Real.exp (listMax l))⁻¹ := by
    simp [Real.exp_sub, div_eq_mul_inv]
  rw [hmap, List.sum_map_mul_right]
  rw [Real.log_mul (ne_of_gt (sum_map_exp_pos l h)) (by positivity)]
  rw [Real.log_inv, Real.log_exp]
  ring

lemma exp_log_sum_exp (l : List ℝ) (h : l ≠ []) :
    Real.exp (log_sum_exp l) = (l.map Real.exp).sum := by
  rw [log_sum_exp_eq l h, Real.exp_log (sum_map_exp_pos l h)]

lemma lse4_eq_log (g : ℕ → ℝ) :
    lse4 g = Real.log (∑ t ∈ Finset.range 4, Real.exp (g t)) := by
  rw [lse4, log_sum_exp_eq (vec4 g) (by simp [vec4])]
  congr 1

lemma exp_lse4 (g : ℕ → ℝ) :
    Real.exp (lse4 g) = ∑ t ∈ Finset.range 4, Real.exp (g t) := by
  rw [lse4_eq_log, Real.exp_log]
  have h : ∀ t ∈ Finset.range 4, 0 < Real.exp (g t) := fun t _ => Real.exp_pos _
  exact Finset.sum_pos h ⟨0, by decide⟩

/-- Claim C9: for every nonempty list `v`, `log_sum_exp v` computed as
`max(v) + log(sum(exp(v - max(v))))` equals `log(sum(exp(v)))`, and for
every constant `c`, `log_sum_exp (v + c) = log_sum_exp v + c`. -/
theorem c9_log_sum_exp (l : List ℝ) (h : l ≠ []) :
    log_sum_exp l = Real.log ((l.map Real.exp).sum) ∧
    ∀ c : ℝ, log_sum_exp (l.map fun v => v + c) = log_sum_exp l + c := by
  refine ⟨log_sum_exp_eq l h, fun c => ?_⟩
  have h' : l.map (fun v => v + c) ≠ [] := by
    intro hc
    exact h (List.map_eq_nil_iff.mp hc)
  rw [log_sum_exp_eq _ h', log_sum_exp_eq l h, List.map_map]
  have hmap : (l.map (Real.exp ∘ fun v => v + c)) =
      l.map fun v => Real.exp v * Real.exp c := by
    simp [Function.comp, Real.exp_add]
  rw [hmap, List.sum_map_mul_right,
    Real.log_mul (ne_of_gt (sum_map_exp_pos l h)) (Real.exp_pos c).ne',
    Real.log_exp]

/-- Witness for C9 at the concrete list `[0, 1]`. -/
theorem c9_log_sum_exp_witness :
    ([(0 : ℝ), 1] ≠ []) ∧
    log_sum_exp [(0 : ℝ), 1] = Real.log (([(0 : ℝ), 1].map Real.exp).sum) := by
  have h : ([(0 : ℝ), 1] ≠ []) := by simp
  exact ⟨h, (c9_log_sum_exp [(0 : ℝ), 1] h).1⟩

lemma exp_log_alpha_succ (M : ℕ → ℕ → ℕ → ℝ) (i t : ℕ) (hi : 1 ≤ i) :
    Real.exp (log_alpha M (i + 1) t) =
      ∑ u ∈ Finset.range 4,
        Real.exp (log_alpha M i u) * Real.exp (M (i + 1) u t) := by
  obtain ⟨j, rfl⟩ : ∃ j, i = j + 1 := ⟨i - 1, by omega⟩
  show Real.exp (log_alpha M (j + 2) t) = _
  rw [log_alpha, exp_lse4]
  exact Finset.sum_congr rfl fun u _ => by rw [Real.exp_add]

lemma exp_betaAux_succ (M : ℕ → ℕ → ℕ → ℝ) (n k t : ℕ) :
    Real.exp (betaAux M n (k + 1) t) =
      ∑ u ∈ Finset.range 4,
        Real.exp (M (n - k) t u) * Real.exp (betaAux M n k u) := by
  rw [betaAux, exp_lse4]
  exact Finset.sum_congr rfl fun u _ => by rw [Real.exp_add, mul_comm]

lemma alpha_betaAux_const (M : ℕ → ℕ → ℕ → ℝ) (n : ℕ) :
    ∀ d, d < n →
      ∑ t ∈ Finset.range 4,
        Real.exp (log_alpha M (n - d) t) * Real.exp (betaAux M n d t) =
      Real.exp (log_z M n) := by
  intro d
  induction d with
  | zero =>
    intro _
    rw [log_z, exp_lse4]
    simp only [Nat.sub_zero]
    exact (Finset.sum_congr rfl fun t _ => by rw [Real.exp_add, betaAux]).symm
  | succ d ih =>
    intro hd
    have hd' : d < n := Nat.lt_of_succ_lt hd
    have hi : 1 ≤ n - (d + 1) := by omega
    have hnd : n - d = n - (d + 1) + 1 := by omega
    rw [← ih hd']
    calc ∑ t ∈ Finset.range 4,
          Real.exp (log_alpha M (n - (d + 1)) t) * Real.exp (betaAux M n (d + 1) t)
        = ∑ t ∈ Finset.range 4, ∑ u ∈ Finset.range 4,
            Real.exp (log_alpha M (n - (d + 1)) t) *
              (Real.exp (M (n - d) t u) * Real.exp (betaAux M n d u)) := by
          refine Finset.sum_congr rfl fun t _ => ?_
          rw [exp_betaAux_succ, Finset.mul_sum]
      _ = ∑ u ∈ Finset.range 4,
            (∑ t ∈ Finset.range 4,
              Real.exp (log_alpha M (n - (d + 1)) t) * Real.exp (M (n - d) t u)) *
            Real.exp (betaAux M n d u) := by
          rw [Finset.sum_comm]
          exact Finset.sum_congr rfl fun u _ => by rw [Finset.sum_mul]; ring_nf
      _ = ∑ u ∈ Finset.range 4,
            Real.exp (log_alpha M (n - d) u) * Real.exp (betaAux M n d u) := by
          refine Finset.sum_congr rfl fun u _ => ?_
          rw [hnd, exp_log_alpha_succ M _ u hi]

lemma log_z_eq_alpha_beta (M : ℕ → ℕ → ℕ → ℝ) (n i : ℕ)
    (hi1 : 1 ≤ i) (hi2 : i ≤ n) :
    log_z M n = lse4 fun t => log_alpha M i t + log_beta M n i t := by
  have hbeta : ∀ t, log_beta M n i t = betaAux M n (n - i) t := by
    intro t
    rw [log_beta, if_pos]
    omega
  have hd : n - i < n := by omega
  have hni : n - (n - i) = i := by omega
  rw [lse4_eq_log]
  have hconst := alpha_betaAux_const M n (n - i) hd
  rw [hni] at hconst
  have hsum : ∑ t ∈ Finset.range 4, Real.exp (log_alpha M i t + log_beta M n i t)
      = Real.exp (log_z M n) := by
    rw [← hconst]
    exact Finset.sum_congr rfl fun t _ => by rw [Real.exp_add, hbeta]
  rw [hsum, Real.log_exp]


/-- Claim C4: for every sentinel-bracketed in-vocabulary sequence `x` with
`n ≥ 1` tokens, `log_z(x)` computed from the final forward values as
`logSumExp(alpha[n,:] + M[n+1,:,end])` equals
`logSumExp(alpha[i,:] + beta[i,:])` at every intermediate position
`i ∈ [1, n]`. -/
theorem c4_forward_backward_agreement (nw : ℕ) (w : ℕ → ℝ) (body : List ℕ)
    (_hvocab : ∀ a ∈ body, a < nw) (_hnw : 2 ≤ nw) (i : ℕ)
    (hi1 : 1 ≤ i) (hi2 : i ≤ body.length) :
    log_z (log_potential_matrix nw w (0 :: body ++ [1])) body.length =
      lse4 fun t =>
        log_alpha (log_potential_matrix nw w (0 :: body ++ [1])) i t +
          log_beta (log_potential_matrix nw w (0 :: body ++ [1])) body.length i t :=
  log_z_eq_alpha_beta _ _ _ hi1 hi2

/-- Witness for C4: the one-token sequence `[0, 2, 1]` over a 3-word
vocabulary with zero weights, at position `i = 1`. -/
theorem c4_forward_backward_agreement_witness :
    (∀ a ∈ ([2] : List ℕ), a < 3) ∧
    log_z (log_potential_matrix 3 (fun _ => (0 : ℝ)) (0 :: [2] ++ [1])) 1 =
      lse4 fun t =>
        log_alpha (log_potential_matrix 3 (fun _ => (0 : ℝ)) (0 :: [2] ++ [1])) 1 t +
          log_beta (log_potential_matrix 3 (fun _ => (0 : ℝ)) (0 :: [2] ++ [1])) 1 1 t :=
  ⟨by decide,
    c4_forward_backward_agreement 3 (fun _ => 0) [2] (by decide) (by norm_num) 1
      le_rfl (by decide)⟩


lemma sum_map_list_range (m : ℕ) (f : ℕ → ℝ) :
    ((List.range m).map f).sum = ∑ u ∈ Finset.range m, f u := by
  induction m with
  | zero => simp
  | succ m ih => simp [List.range_succ, Finset.sum_range_succ, ih]

lemma sum_map_flatMap {α β : Type} (l : List α) (g : α → List β) (f : β → ℝ) :
    ((l.flatMap g).map f).sum = (l.map fun a => ((g a).map f).sum).sum := by
  induction l with
  | nil => simp
  | cons a t ih => simp [List.flatMap_cons, ih]

lemma sum_map_finset_sum {α β : Type} (l : List α) (s : Finset β) (h : α → β → ℝ) :
    (l.map fun a => ∑ b ∈ s, h a b).sum = ∑ b ∈ s, (l.map fun a => h a b).sum := by
  induction l with
  | nil => simp
  | cons a t ih => simp [ih, Finset.sum_add_distrib]

lemma allPaths_length (n : ℕ) : (allPaths n).length = 4 ^ n := by
  induction n with
  | zero => simp [allPaths]
  | succ n ih =>
    rw [allPaths, List.length_flatMap]
    have hmap : (List.map (List.length ∘ fun p => (List.range 4).map fun t => p ++ [t])
        (allPaths n)) = (allPaths n).map fun _ => 4 := by
      apply List.map_congr_left
      intro p _
      simp
    rw [hmap]
    simp [List.map_const', List.sum_replicate, smul_eq_mul, ih, pow_succ, Nat.mul_comm]

lemma length_of_mem_allPaths : ∀ n (p : List ℕ), p ∈ allPaths n → p.length = n := by
  intro n
  induction n with
  | zero => intro p hp; simp [allPaths] at hp; simp [hp]
  | succ n ih =>
    intro p hp
    rw [allPaths, List.mem_flatMap] at hp
    obtain ⟨q, hq, hp⟩ := hp
    simp only [List.mem_map, List.mem_range] at hp
    obtain ⟨t, _, rfl⟩ := hp
    simp [ih q hq]

lemma lt4_of_mem_allPaths : ∀ n (p : List ℕ), p ∈ allPaths n → ∀ t ∈ p, t < 4 := by
  intro n
  induction n with
  | zero => intro p hp; simp [allPaths] at hp; simp [hp]
  | succ n ih =>
    intro p hp
    rw [allPaths, List.mem_flatMap] at hp
    obtain ⟨q, hq, hp⟩ := hp
    simp only [List.mem_map, List.mem_range] at hp
    obtain ⟨u, hu, rfl⟩ := hp
    intro t ht
    rcases List.mem_append.mp ht with h | h
    · exact ih q hq t h
    · simp at h; omega

lemma transSum_concat (M : ℕ → ℕ → ℕ → ℝ) (p : List ℕ) : ∀ (i0 prev t : ℕ),
    transSum M i0 prev (p ++ [t]) =
      transSum M i0 prev p + M (i0 + p.length) (p.getLastD prev) t := by
  induction p with
  | nil => intro i0 prev t; simp [transSum]
  | cons a rest ih =>
    intro i0 prev t
    show M i0 prev a + transSum M (i0 + 1) a (rest ++ [t]) = _
    rw [ih (i0 + 1) a t]
    have h1 : (a :: rest).getLastD prev = rest.getLastD a := List.getLastD_cons prev a rest
    have h2 : i0 + 1 + rest.length = i0 + (a :: rest).length := by simp; omega
    rw [h1]
    show _ = M i0 prev a + transSum M (i0 + 1) a rest +
      M (i0 + (a :: rest).length) (rest.getLastD a) t
    rw [← h2]
    ring


lemma exp_alpha_pathSum (M : ℕ → ℕ → ℕ → ℝ) :
    ∀ (i t : ℕ), Real.exp (log_alpha M (i + 1) t) =
      ((allPaths i).map fun p =>
        Real.exp (transSum M 1 startIdx (p ++ [t]))).sum := by
  intro i
  induction i with
  | zero =>
    intro t
    show Real.exp (M 1 startIdx t) = _
    simp [allPaths, transSum]
  | succ i ih =>
    intro t
    have h1 : Real.exp (log_alpha M (i + 1 + 1) t) =
        ∑ u ∈ Finset.range 4,
          Real.exp (log_alpha M (i + 1) u) * Real.exp (M (i + 2) u t) :=
      exp_log_alpha_succ M (i + 1) t (by omega)
    rw [h1]
    have h2 : ∀ u, Real.exp (log_alpha M (i + 1) u) * Real.exp (M (i + 2) u t) =
        ((allPaths i).map fun p =>
          Real.exp (transSum M 1 startIdx (p ++ [u])) * Real.exp (M (i + 2) u t)).sum := by
      intro u
      rw [ih u, ← List.sum_map_mul_right]
    rw [Finset.sum_congr rfl fun u _ => h2 u]
    rw [← sum_map_finset_sum]
    show _ = ((allPaths (i + 1)).map fun p' =>
      Real.exp (transSum M 1 startIdx (p' ++ [t]))).sum
    rw [allPaths, sum_map_flatMap]
    apply congrArg
    apply List.map_congr_left
    intro p hp
    rw [List.map_map, sum_map_list_range]
    refine Finset.sum_congr rfl fun u _ => ?_
    have hq : transSum M 1 startIdx ((p ++ [u]) ++ [t]) =
        transSum M 1 startIdx (p ++ [u]) +
          M (1 + (p ++ [u]).length) ((p ++ [u]).getLastD startIdx) t :=
      transSum_concat M (p ++ [u]) 1 startIdx t
    have hlen : 1 + (p ++ [u]).length = i + 2 := by
      simp [length_of_mem_allPaths i p hp]
      omega
    have hlast : (p ++ [u]).getLastD startIdx = u := List.getLastD_concat _ _ _
    simp only [Function.comp]
    rw [hq, hlen, hlast, Real.exp_add]

lemma exp_log_z_pathSum (M : ℕ → ℕ → ℕ → ℝ) (n : ℕ) (hn : 1 ≤ n) :
    Real.exp (log_z M n) =
      ((allPaths n).map fun p =>
        Real.exp (transSum M 1 startIdx p +
          M (n + 1) (p.getLastD startIdx) endIdx)).sum := by
  obtain ⟨m, rfl⟩ : ∃ m, n = m + 1 := ⟨n - 1, by omega⟩
  rw [log_z, exp_lse4]
  have h1 : ∀ t, Real.exp (log_alpha M (m + 1) t + M (m + 1 + 1) t endIdx) =
      ((allPaths m).map fun p =>
        Real.exp (transSum M 1 startIdx (p ++ [t]) + M (m + 2) t endIdx)).sum := by
    intro t
    rw [Real.exp_add, exp_alpha_pathSum M m t, ← List.sum_map_mul_right]
    apply congrArg
    apply List.map_congr_left
    intro p _
    rw [← Real.exp_add]
  rw [Finset.sum_congr rfl fun t _ => h1 t, ← sum_map_finset_sum]
  show _ = ((allPaths (m + 1)).map fun p =>
    Real.exp (transSum M 1 startIdx p + M (m + 1 + 1) (p.getLastD startIdx) endIdx)).sum
  rw [allPaths, sum_map_flatMap]
  apply congrArg
  apply List.map_congr_left
  intro p _
  rw [List.map_map, sum_map_list_range]
  refine Finset.sum_congr rfl fun u _ => ?_
  simp only [Function.comp]
  rw [List.getLastD_concat]


lemma matrix_entry_eq (nw : ℕ) (w : ℕ → ℝ) (x : List ℕ) (i a b : ℕ)
    (hi1 : 1 ≤ i) (hi2 : i ≤ x.length - 1) (ha : a < 4) (hb : b < 4) :
    log_potential_matrix nw w x i a b = (log_potential_at nw w x a b i).getD 0 := by
  rw [log_potential_matrix, if_pos ⟨hi1, hi2, ha, hb⟩]

lemma rangeSum_eq_transSum (nw : ℕ) (w : ℕ → ℝ) (x : List ℕ) :
    ∀ (p : List ℕ) (prev i0 : ℕ), (∀ t ∈ p, t < 4) → prev < 4 → 1 ≤ i0 →
      i0 + p.length ≤ x.length →
      ((List.range p.length).map fun j =>
        (log_potential_at nw w x ((prev :: p).getD j 0)
          ((prev :: p).getD (j + 1) 0) (i0 + j)).getD 0).sum =
      transSum (log_potential_matrix nw w x) i0 prev p := by
  intro p
  induction p with
  | nil => intro prev i0 _ _ _ _; simp [transSum]
  | cons t rest ih =>
    intro prev i0 hlt hprev hi0 hbound
    have hlen : (t :: rest).length = rest.length + 1 := rfl
    rw [hlen, List.range_succ_eq_map, List.map_cons, List.sum_cons, List.map_map]
    have hhead : ((prev :: t :: rest).getD 0 0) = prev := rfl
    have hf0 : (log_potential_at nw w x ((prev :: t :: rest).getD 0 0)
        ((prev :: t :: rest).getD 1 0) (i0 + 0)).getD 0 =
        log_potential_matrix nw w x i0 prev t := by
      rw [matrix_entry_eq nw w x i0 prev t hi0 (by simp at hbound; omega) hprev
        (hlt t (List.mem_cons_self t rest))]
      rfl
    have htail : ((List.range rest.length).map
        ((fun j => (log_potential_at nw w x ((prev :: t :: rest).getD j 0)
          ((prev :: t :: rest).getD (j + 1) 0) (i0 + j)).getD 0) ∘ Nat.succ)).sum =
        transSum (log_potential_matrix nw w x) (i0 + 1) t rest := by
      rw [← ih t (i0 + 1) (fun u hu => hlt u (List.mem_cons_of_mem t hu))
        (hlt t (List.mem_cons_self t rest)) (by omega) (by simp at hbound ⊢; omega)]
      apply congrArg
      apply List.map_congr_left
      intro j _
      simp only [Function.comp]
      have h1 : (prev :: t :: rest).getD (j + 1) 0 = (t :: rest).getD j 0 :=
        List.getD_cons_succ
      have h2 : (prev :: t :: rest).getD (j + 1 + 1) 0 = (t :: rest).getD (j + 1) 0 :=
        List.getD_cons_succ
      have h3 : i0 + (j + 1) = i0 + 1 + j := by omega
      rw [h1, h2, h3]
    rw [hf0, htail]
    rfl

lemma bracket_getD_last (p : List ℕ) (hp : p ≠ []) :
    (startIdx :: p ++ [endIdx]).getD p.length 0 = p.getLastD startIdx := by
  obtain ⟨k, hk⟩ : ∃ k, p.length = k + 1 :=
    ⟨p.length - 1, by cases p with | nil => exact absurd rfl hp | cons a l => simp⟩
  have h1 : (startIdx :: p ++ [endIdx]).getD p.length 0 = (p ++ [endIdx]).getD k 0 := by
    rw [hk]; exact List.getD_cons_succ
  have hkp : k < p.length := by omega
  have h2 : (p ++ [endIdx]).getD k 0 = p.getD k 0 := List.getD_append p [endIdx] 0 k hkp
  have h3 : p.getD k 0 = p[k] := List.getD_eq_getElem p 0 hkp
  have h4 : p.getLastD startIdx = p.getLast hp := by
    rw [List.getLastD_eq_getLast?, List.getLast?_eq_getLast p hp]
    rfl
  have h5 : p.getLast hp = p[p.length - 1] := List.getLast_eq_getElem p hp
  rw [h1, h2, h3, h4, h5]
  congr 1
  omega


lemma getLastD_lt4 (p : List ℕ) (hp : p ≠ []) (h : ∀ t ∈ p, t < 4) :
    p.getLastD startIdx < 4 := by
  have h4 : p.getLastD startIdx = p.getLast hp := by
    rw [List.getLastD_eq_getLast?, List.getLast?_eq_getLast p hp]
    rfl
  rw [h4]
  exact h _ (List.getLast_mem hp)

/-- Claim C1 (amended): for a sentinel-bracketed in-vocabulary sequence
with `1 ≤ n ≤ 4` tokens, summing `exp` of the log conditional probability
over all `ntags^n` bracketed tag paths equals 1, **provided the final
transition into the end sentinel, `log_potential_at(x, y[n], endTag, n+1)`,
is added to each path score** (the code's `log_potential` stops the sum at
`i = n` while `log_z` includes position `n + 1`, so without this term the
sum is not 1; see the counterexample). -/
theorem c1_normalization (nw : ℕ) (w : ℕ → ℝ) (body : List ℕ)
    (_hvocab : ∀ a ∈ body, a < nw) (_hnw : 2 ≤ nw)
    (hn1 : 1 ≤ body.length) (_hn4 : body.length ≤ 4) :
    ((allPaths body.length).map fun p =>
      Real.exp (log_potential nw w (0 :: body ++ [1]) (startIdx :: p ++ [endIdx]) +
        (log_potential_at nw w (0 :: body ++ [1])
          ((startIdx :: p ++ [endIdx]).getD body.length 0) endIdx
          (body.length + 1)).getD 0)).sum = 1 ∧
    (allPaths body.length).length = 4 ^ body.length := by
  constructor
  · set x : List ℕ := 0 :: body ++ [1] with hx
    set n : ℕ := body.length with hn
    set M : ℕ → ℕ → ℕ → ℝ := log_potential_matrix nw w x with hM
    have hxlen : x.length = n + 2 := by simp [hx, hn]
    have hterm : ∀ p ∈ allPaths n,
        log_potential nw w x (startIdx :: p ++ [endIdx]) +
          (log_potential_at nw w x ((startIdx :: p ++ [endIdx]).getD n 0) endIdx
            (n + 1)).getD 0 =
        transSum M 1 startIdx p + M (n + 1) (p.getLastD startIdx) endIdx
          - log_z M n := by
      intro p hp
      have hplen : p.length = n := length_of_mem_allPaths n p hp
      have hplt : ∀ t ∈ p, t < 4 := lt4_of_mem_allPaths n p hp
      have hpne : p ≠ [] := by
        intro h
        rw [h] at hplen
        simp at hplen
        omega
      have hylen : (startIdx :: p ++ [endIdx]).length - 2 = n := by simp [hplen]
      have hgetD : ∀ j, j < n + 1 →
          (startIdx :: p ++ [endIdx]).getD j 0 = (startIdx :: p).getD j 0 := by
        intro j hj
        show ((startIdx :: p) ++ [endIdx]).getD j 0 = (startIdx :: p).getD j 0
        exact List.getD_append _ _ _ _ (by simp [hplen]; omega)
      have hsum : ((List.range n).map fun j =>
          (log_potential_at nw w x ((startIdx :: p ++ [endIdx]).getD j 0)
            ((startIdx :: p ++ [endIdx]).getD (j + 1) 0) (j + 1)).getD 0).sum =
          transSum M 1 startIdx p := by
        rw [← rangeSum_eq_transSum nw w x p startIdx 1 hplt (by decide) le_rfl
          (by omega)]
        rw [hplen]
        apply congrArg
        apply List.map_congr_left
        intro j hj
        rw [List.mem_range] at hj
        rw [hgetD j (by omega), hgetD (j + 1) (by omega), Nat.add_comm 1 j]
      have hlast : (startIdx :: p ++ [endIdx]).getD n 0 = p.getLastD startIdx := by
        rw [← hplen]
        exact bracket_getD_last p hpne
      have hfin : (log_potential_at nw w x ((startIdx :: p ++ [endIdx]).getD n 0)
          endIdx (n + 1)).getD 0 = M (n + 1) (p.getLastD startIdx) endIdx := by
        rw [hlast, hM,
          matrix_entry_eq nw w x (n + 1) (p.getLastD startIdx) endIdx (by omega)
            (by omega) (getLastD_lt4 p hpne hplt) (by decide)]
      rw [log_potential, hylen, hxlen]
      have hn2 : n + 2 - 2 = n := by omega
      rw [hn2, hsum, hfin]
      ring
    rw [List.map_congr_left fun p hp => congrArg Real.exp (hterm p hp)]
    have hsplit : ∀ p : List ℕ,
        Real.exp (transSum M 1 startIdx p + M (n + 1) (p.getLastD startIdx) endIdx
          - log_z M n) =
        Real.exp (transSum M 1 startIdx p + M (n + 1) (p.getLastD startIdx) endIdx) *
          Real.exp (-log_z M n) := by
      intro p
      rw [← Real.exp_add]
      ring_nf
    rw [List.map_congr_left fun p _ => hsplit p, List.sum_map_mul_right,
      ← exp_log_z_pathSum M n hn1, ← Real.exp_add]
    simp
  · exact allPaths_length body.length


set_option maxHeartbeats 1000000 in
/-- Counterexample for C1 as originally stated: over a 3-word vocabulary
with weight 1 on feature 31 (`('U', 0, end_word, 'S')`) and the one-token
sequence `[0, 2, 1]`, the sum of `exp(log_potential)` over all 4 bracketed
tag paths is `exp(-1) ≠ 1`, because `log_potential` omits the transition
potential into the end sentinel that `log_z` includes. -/
theorem c1_counterexample :
    ((allPaths 1).map fun p =>
      Real.exp (log_potential 3 wC1 [0, 2, 1] (startIdx :: p ++ [endIdx]))).sum ≠ 1 := by
  have e10 : (log_potential_at 3 wC1 [0, 2, 1] 3 0 1).getD 0 = 0 := by
    rw [log_potential_at,
      show activeIds 3 [0, 2, 1] 3 0 1 = some [12, 32, 40, 104] from by decide]
    norm_num [wC1]
  have e11 : (log_potential_at 3 wC1 [0, 2, 1] 3 1 1).getD 0 = 0 := by
    rw [log_potential_at,
      show activeIds 3 [0, 2, 1] 3 1 1 = some [13, 33, 41, 105] from by decide]
    norm_num [wC1]
  have e12 : (log_potential_at 3 wC1 [0, 2, 1] 3 2 1).getD 0 = 0 := by
    rw [log_potential_at,
      show activeIds 3 [0, 2, 1] 3 2 1 = some [14, 34, 42, 106] from by decide]
    norm_num [wC1]
  have e13 : (log_potential_at 3 wC1 [0, 2, 1] 3 3 1).getD 0 = 0 := by
    rw [log_potential_at,
      show activeIds 3 [0, 2, 1] 3 3 1 = some [15, 35, 43, 107] from by decide]
    norm_num [wC1]
  have f0 : (log_potential_at 3 wC1 [0, 2, 1] 0 3 2).getD 0 = 1 := by
    rw [log_potential_at,
      show activeIds 3 [0, 2, 1] 0 3 2 = some [3, 23, 31, 79] from by decide]
    norm_num [wC1]
  have f1 : (log_potential_at 3 wC1 [0, 2, 1] 1 3 2).getD 0 = 1 := by
    rw [log_potential_at,
      show activeIds 3 [0, 2, 1] 1 3 2 = some [3, 23, 31, 83] from by decide]
    norm_num [wC1]
  have f2 : (log_potential_at 3 wC1 [0, 2, 1] 2 3 2).getD 0 = 1 := by
    rw [log_potential_at,
      show activeIds 3 [0, 2, 1] 2 3 2 = some [3, 23, 31, 87] from by decide]
    norm_num [wC1]
  have f3 : (log_potential_at 3 wC1 [0, 2, 1] 3 3 2).getD 0 = 1 := by
    rw [log_potential_at,
      show activeIds 3 [0, 2, 1] 3 3 2 = some [3, 23, 31, 91] from by decide]
    norm_num [wC1]
  have hM1 : ∀ t, t < 4 → log_potential_matrix 3 wC1 [0, 2, 1] 1 3 t = 0 := by
    intro t ht
    rw [matrix_entry_eq 3 wC1 [0, 2, 1] 1 3 t (by norm_num) (by norm_num) (by norm_num) ht]
    interval_cases t
    · exact e10
    · exact e11
    · exact e12
    · exact e13
  have hM2 : ∀ t, t < 4 → log_potential_matrix 3 wC1 [0, 2, 1] 2 t 3 = 1 := by
    intro t ht
    rw [matrix_entry_eq 3 wC1 [0, 2, 1] 2 t 3 (by norm_num) (by norm_num) ht (by norm_num)]
    interval_cases t
    · exact f0
    · exact f1
    · exact f2
    · exact f3
  have hz : log_z (log_potential_matrix 3 wC1 [0, 2, 1]) 1 = 1 + Real.log 4 := by
    rw [log_z, lse4]
    have hvec : vec4 (fun t => log_alpha (log_potential_matrix 3 wC1 [0, 2, 1]) 1 t +
        log_potential_matrix 3 wC1 [0, 2, 1] (1 + 1) t endIdx) = [1, 1, 1, 1] := by
      have halpha : ∀ t, log_alpha (log_potential_matrix 3 wC1 [0, 2, 1]) 1 t =
          log_potential_matrix 3 wC1 [0, 2, 1] 1 3 t := fun t => rfl
      simp only [vec4, halpha, endIdx, show (1 + 1 : ℕ) = 2 from rfl]
      rw [hM1 0 (by norm_num), hM1 1 (by norm_num), hM1 2 (by norm_num),
        hM1 3 (by norm_num), hM2 0 (by norm_num), hM2 1 (by norm_num),
        hM2 2 (by norm_num), hM2 3 (by norm_num)]
      norm_num
    rw [hvec, log_sum_exp]
    have hm : listMax [(1 : ℝ), 1, 1, 1] = 1 := by
      simp [listMax]
    rw [hm]
    norm_num [Real.exp_zero]
  have hterm : ∀ t, t < 4 →
      log_potential 3 wC1 [0, 2, 1] (startIdx :: [t] ++ [endIdx]) =
        -(1 + Real.log 4) := by
    intro t ht
    rw [log_potential]
    have hlen : ((startIdx :: [t] ++ [endIdx]).length - 2) = 1 := rfl
    have hlen2 : (([0, 2, 1] : List ℕ).length - 2) = 1 := rfl
    rw [hlen, hlen2, hz, show List.range 1 = [0] from rfl, List.map_cons,
      List.map_nil, List.sum_cons, List.sum_nil]
    have hd0 : (startIdx :: [t] ++ [endIdx]).getD 0 0 = 3 := rfl
    have hd1 : (startIdx :: [t] ++ [endIdx]).getD 1 0 = t := rfl
    rw [hd0, hd1]
    have ha : (log_potential_at 3 wC1 [0, 2, 1] 3 t (0 + 1)).getD 0 = 0 := by
      interval_cases t
      · exact e10
      · exact e11
      · exact e12
      · exact e13
    rw [ha]
    ring
  have hpaths : allPaths 1 = [[0], [1], [2], [3]] := by decide
  rw [hpaths]
  simp only [List.map_cons, List.map_nil, List.sum_cons, List.sum_nil]
  rw [hterm 0 (by norm_num), hterm 1 (by norm_num), hterm 2 (by norm_num),
    hterm 3 (by norm_num)]
  have hexp : Real.exp (-(1 + Real.log 4)) = Real.exp (-1) * (4 : ℝ)⁻¹ := by
    rw [neg_add, Real.exp_add, Real.exp_neg (Real.log 4), Real.exp_log (by norm_num)]
  rw [hexp]
  intro hcontra
  have hsum : Real.exp (-1) * (4 : ℝ)⁻¹ + (Real.exp (-1) * (4 : ℝ)⁻¹ +
      (Real.exp (-1) * (4 : ℝ)⁻¹ + (Real.exp (-1) * (4 : ℝ)⁻¹ + 0))) =
      Real.exp (-1) := by
    ring
  rw [hsum] at hcontra
  have hcontra' : Real.exp (-1) = Real.exp 0 := by
    rw [Real.exp_zero]
    exact hcontra
  have hneg : (-1 : ℝ) = 0 := Real.exp_eq_exp.mp hcontra'
  norm_num at hneg

/-- Witness for the amended C1 at the one-token sequence `[0, 2, 1]` over a
3-word vocabulary with zero weights. -/
theorem c1_normalization_witness :
    (∀ a ∈ ([2] : List ℕ), a < 3) ∧
    (((allPaths 1).map fun p =>
      Real.exp (log_potential 3 (fun _ => (0 : ℝ)) (0 :: [2] ++ [1])
          (startIdx :: p ++ [endIdx]) +
        (log_potential_at 3 (fun _ => (0 : ℝ)) (0 :: [2] ++ [1])
          ((startIdx :: p ++ [endIdx]).getD 1 0) endIdx 2).getD 0)).sum = 1 ∧
    (allPaths 1).length = 4 ^ 1) :=
  ⟨by decide,
    c1_normalization 3 (fun _ => 0) [2] (by decide) (by norm_num) (by decide) (by decide)⟩


lemma foldl_replace_eq_getLastD {α : Type} :
    ∀ (l : List α) (init : α), l.foldl (fun _ p => p) init = l.getLastD init := by
  intro l
  induction l with
  | nil => intro init; rfl
  | cons a t ih =>
    intro init
    rw [List.foldl_cons, ih a, List.getLastD_cons]

/-- Counterexample for C7 as stated: the optimizer mutates `self.weights`
through every `ncallable` / `njac_callable` evaluation it performs, and the
failure branch of `train` (crf.py:419-420) only prints — nothing restores
the weights.  In a failed run that evaluated the callables at the constant
vector 1 starting from initial weights 0, the model afterwards holds 1,
not the previous (initial) weight vector. -/
theorem c7_counterexample :
    ((⟨[fun _ => 1], fun _ => 2, false⟩ : OptResult).success = false) ∧
    (train_tail (fun _ => (0 : ℝ))
        ⟨[fun _ => 1], fun _ => 2, false⟩).1 ≠ (fun _ => (0 : ℝ)) := by
  refine ⟨rfl, fun h => ?_⟩
  have h0 := congrFun h 0
  have h1 : (train_tail (fun _ => (0 : ℝ))
      ⟨[fun _ => 1], fun _ => 2, false⟩).1 0 = 1 := rfl
  rw [h1] at h0
  norm_num at h0

/-- Claim C7 (amended): when the external optimizer reports failure
(`res.success = false`), the training driver reports the failure and
writes no model artifact, but — contrary to the claim — the weight vector
held by the model afterwards is the **last iterate the optimizer evaluated
its callables at** (`ncallable`/`njac_callable` assign `self.weights` on
every evaluation, crf.py:305-316, and nothing restores it), which equals
the initial vector only when the optimizer performed no evaluations; the
returned weights are adopted and the artifact written only on success. -/
theorem c7_train_failure (w0 : ℕ → ℝ) (res : OptResult) :
    (res.success = false →
      train_tail w0 res = (res.evals.getLastD w0, none, true)) ∧
    (res.success = true → train_tail w0 res = (res.x, some res.x, false)) := by
  constructor
  · intro h
    rw [train_tail]
    simp only [ncallable_weights, h, Bool.false_eq_true, if_false]
    rw [foldl_replace_eq_getLastD]
  · intro h
    simp [train_tail, ncallable_weights, h]

/-- Witness for the amended C7: a failed run whose last callable
evaluation was at the constant vector 1 leaves weights 1 in place, writes
nothing, and reports the failure. -/
theorem c7_train_failure_witness :
    train_tail (fun _ => (0 : ℝ)) ⟨[fun _ => 1], fun _ => 2, false⟩ =
      ((fun _ => (1 : ℝ)), none, true) :=
  (c7_train_failure (fun _ => 0) ⟨[fun _ => 1], fun _ => 2, false⟩).1 rfl


lemma U_mem_featureList (nw : ℕ) (pos : ℤ) (wd t : ℕ) :
    Feature.U pos wd t ∈ featureList nw ↔ pos ∈ uFeaturePos ∧ wd < nw ∧ t < 4 := by
  simp only [featureList, uFeatureList, bFeatureList, List.mem_append,
    List.mem_flatMap, List.mem_map, List.mem_range]
  constructor
  · rintro (⟨a, ha, b, hb, ⟨c, hc, heq⟩⟩ | ⟨a, ha, b, hb, c, hc, d, hd, heq⟩)
    · cases heq
      exact ⟨ha, hb, hc⟩
    · cases heq
  · rintro ⟨h1, h2, h3⟩
    exact Or.inl ⟨pos, h1, wd, h2, t, h3, rfl⟩

lemma B_mem_featureList (nw : ℕ) (pos : ℤ) (wd t1 t2 : ℕ) :
    Feature.B pos wd t1 t2 ∈ featureList nw ↔
      pos ∈ bFeaturePos ∧ wd < nw ∧ t1 < 4 ∧ t2 < 4 := by
  simp only [featureList, uFeatureList, bFeatureList, List.mem_append,
    List.mem_flatMap, List.mem_map, List.mem_range]
  constructor
  · rintro (⟨a, ha, b, hb, ⟨c, hc, heq⟩⟩ | ⟨a, ha, b, hb, c, hc, d, hd, heq⟩)
    · cases heq
    · cases heq
      exact ⟨ha, hb, hc, hd⟩
  · rintro ⟨h1, h2, h3, h4⟩
    exact Or.inr ⟨pos, h1, wd, h2, t1, h3, t2, h4, rfl⟩

lemma feature_index_isSome_of_mem (nw : ℕ) (f : Feature)
    (h : f ∈ featureList nw) : (feature_index nw f).isSome := by
  rw [feature_index, List.findIdx?_isSome, List.any_eq_true]
  exact ⟨f, h, by simp⟩

lemma mapM_isSome {α β : Type} (g : α → Option β) (l : List α)
    (h : ∀ a ∈ l, (g a).isSome) : (l.mapM g).isSome := by
  rw [← List.mapM'_eq_mapM]
  induction l with
  | nil => simp [List.mapM']
  | cons a t ih =>
    obtain ⟨b, hb⟩ := Option.isSome_iff_exists.mp (h a (List.mem_cons_self a t))
    obtain ⟨bs, hbs⟩ := Option.isSome_iff_exists.mp
      (ih fun a' ha' => h a' (List.mem_cons_of_mem a ha'))
    simp [List.mapM', hb, hbs]

lemma getD_mem (x : List ℕ) (j : ℕ) (hj : j < x.length) : x.getD j 0 ∈ x := by
  rw [List.getD_eq_getElem x 0 hj]
  exact List.getElem_mem hj

lemma activeKeys_subset (nw : ℕ) (x : List ℕ) (yi_1 yi i : ℕ)
    (hx : ∀ a ∈ x, a < nw) (h1 : yi_1 < 4) (h2 : yi < 4) :
    ∀ f ∈ activeKeys x yi_1 yi i, f ∈ featureList nw := by
  intro f hf
  rw [activeKeys, List.mem_append] at hf
  rcases hf with hf | hf
  · rw [activeKeysU, List.mem_map] at hf
    obtain ⟨pos, hpos, rfl⟩ := hf
    rw [List.mem_filter, decide_eq_true_eq] at hpos
    obtain ⟨hpmem, hc1, hc2⟩ := hpos
    rw [U_mem_featureList]
    refine ⟨hpmem, ?_, h2⟩
    apply hx
    apply getD_mem
    omega
  · rw [activeKeysB, List.mem_map] at hf
    obtain ⟨pos, hpos, rfl⟩ := hf
    rw [List.mem_filter, decide_eq_true_eq] at hpos
    obtain ⟨hpmem, hc1, hc2⟩ := hpos
    rw [B_mem_featureList]
    refine ⟨hpmem, ?_, h1, h2⟩
    apply hx
    apply getD_mem
    omega

/-- Claim C6 (amended): computing the log potential never hits a lookup
failure **for in-vocabulary word ids** (every word id of `x` below
`nwords` and valid tag ids); but — contrary to the claim — a word id with
no matching feature id makes `log_potential_at` raise a `KeyError`
(modelled as `none`) instead of contributing zero, as the counterexample
shows. -/
theorem c6_missing_feature (nw : ℕ) (w : ℕ → ℝ) (x : List ℕ) (yi_1 yi i : ℕ)
    (hx : ∀ a ∈ x, a < nw) (h1 : yi_1 < 4) (h2 : yi < 4) :
    (log_potential_at nw w x yi_1 yi i).isSome := by
  rw [log_potential_at]
  cases hsome : activeIds nw x yi_1 yi i with
  | some ids => simp
  | none =>
    exfalso
    have hs : (activeIds nw x yi_1 yi i).isSome := by
      rw [activeIds]
      exact mapM_isSome _ _ fun a ha =>
        feature_index_isSome_of_mem nw a
          (activeKeys_subset nw x yi_1 yi i hx h1 h2 a ha)
    rw [hsome] at hs
    simp at hs

/-- Counterexample for C6 as stated: over a trained 3-word vocabulary, the
sequence `[0, 3, 1]` contains the out-of-vocabulary word id 3, and
`log_potential_at` fails with a `KeyError` (`none`) instead of treating
the missing feature as zero. -/
theorem c6_counterexample :
    log_potential_at 3 (fun _ => (0 : ℝ)) [0, 3, 1] 3 0 1 = none := by
  rw [log_potential_at, show activeIds 3 [0, 3, 1] 3 0 1 = none from by decide]
  rfl

/-- Witness for the amended C6 at the in-vocabulary sequence `[0, 2, 1]`. -/
theorem c6_missing_feature_witness :
    (log_potential_at 3 (fun _ => (0 : ℝ)) [0, 2, 1] 3 0 1).isSome :=
  c6_missing_feature 3 (fun _ => 0) [0, 2, 1] 3 0 1 (by decide) (by decide) (by decide)


lemma mem_of_getElem?_some {α : Type} {l : List α} {n : ℕ} {a : α}
    (h : l[n]? = some a) : a ∈ l := by
  obtain ⟨hlt, rfl⟩ := List.getElem?_eq_some_iff.mp h
  exact List.getElem_mem hlt

lemma uFeatureList_nodup (nw : ℕ) : (uFeatureList nw).Nodup := by
  rw [uFeatureList, List.nodup_flatMap]
  constructor
  · intro pos _
    rw [List.nodup_flatMap]
    constructor
    · intro wd _
      exact List.Nodup.map (fun a b h => by simpa using h) (List.nodup_range 4)
    · refine (List.nodup_range nw).imp ?_
      intro a b hab
      rw [Function.onFun, List.disjoint_left]
      intro f hf hf'
      simp only [List.mem_map, List.mem_range] at hf hf'
      obtain ⟨t, _, rfl⟩ := hf
      obtain ⟨t', _, heq⟩ := hf'
      cases heq
      exact hab rfl
  · have hnodup : uFeaturePos.Nodup := by decide
    refine hnodup.imp ?_
    intro a b hab
    rw [Function.onFun, List.disjoint_left]
    intro f hf hf'
    simp only [List.mem_flatMap, List.mem_map, List.mem_range] at hf hf'
    obtain ⟨w1, _, t, _, rfl⟩ := hf
    obtain ⟨w2, _, t', _, heq⟩ := hf'
    cases heq
    exact hab rfl

lemma bFeatureList_nodup (nw : ℕ) : (bFeatureList nw).Nodup := by
  rw [bFeatureList, List.nodup_flatMap]
  constructor
  · intro pos _
    rw [List.nodup_flatMap]
    constructor
    · intro wd _
      rw [List.nodup_flatMap]
      constructor
      · intro t1 _
        exact List.Nodup.map (fun a b h => by simpa using h) (List.nodup_range 4)
      · refine (List.nodup_range 4).imp ?_
        intro a b hab
        rw [Function.onFun, List.disjoint_left]
        intro f hf hf'
        simp only [List.mem_map, List.mem_range] at hf hf'
        obtain ⟨t, _, rfl⟩ := hf
        obtain ⟨t', _, heq⟩ := hf'
        cases heq
        exact hab rfl
    · refine (List.nodup_range nw).imp ?_
      intro a b hab
      rw [Function.onFun, List.disjoint_left]
      intro f hf hf'
      simp only [List.mem_flatMap, List.mem_map, List.mem_range] at hf hf'
      obtain ⟨t1, _, t2, _, rfl⟩ := hf
      obtain ⟨t1', _, t2', _, heq⟩ := hf'
      cases heq
      exact hab rfl
  · have hnodup : bFeaturePos.Nodup := by decide
    refine hnodup.imp ?_
    intro a b hab
    rw [Function.onFun, List.disjoint_left]
    intro f hf hf'
    simp only [List.mem_flatMap, List.mem_map, List.mem_range] at hf hf'
    obtain ⟨w1, _, t1, _, t2, _, rfl⟩ := hf
    obtain ⟨w2, _, t1', _, t2', _, heq⟩ := hf'
    cases heq
    exact hab rfl

lemma uFeatureList_all_U (nw : ℕ) :
    ∀ f ∈ uFeatureList nw, ∃ pos wd t, f = Feature.U pos wd t := by
  intro f hf
  simp only [uFeatureList, List.mem_flatMap, List.mem_map, List.mem_range] at hf
  obtain ⟨pos, _, wd, _, t, _, rfl⟩ := hf
  exact ⟨pos, wd, t, rfl⟩

lemma bFeatureList_all_B (nw : ℕ) :
    ∀ f ∈ bFeatureList nw, ∃ pos wd t1 t2, f = Feature.B pos wd t1 t2 := by
  intro f hf
  simp only [bFeatureList, List.mem_flatMap, List.mem_map, List.mem_range] at hf
  obtain ⟨pos, _, wd, _, t1, _, t2, _, rfl⟩ := hf
  exact ⟨pos, wd, t1, t2, rfl⟩

lemma featureList_nodup (nw : ℕ) : (featureList nw).Nodup := by
  rw [featureList]
  refine (uFeatureList_nodup nw).append (bFeatureList_nodup nw) ?_
  rw [List.disjoint_left]
  intro f hf hf'
  obtain ⟨pos, wd, t, rfl⟩ := uFeatureList_all_U nw f hf
  obtain ⟨pos', wd', t1, t2, heq⟩ := bFeatureList_all_B nw _ hf'
  cases heq

lemma sum_map_length_const {β : Type} (m c : ℕ) (g : ℕ → List β)
    (h : ∀ wd, (g wd).length = c) :
    ((List.range m).map (List.length ∘ g)).sum = m * c := by
  have heq : (List.range m).map (List.length ∘ g) = (List.range m).map fun _ => c :=
    List.map_congr_left fun a _ => h a
  rw [heq, List.map_const', List.sum_replicate, smul_eq_mul, List.length_range]

lemma uFeatureList_length (nw : ℕ) : (uFeatureList nw).length = 5 * nw * 4 := by
  rw [uFeatureList]
  simp only [uFeaturePos, List.flatMap_cons, List.flatMap_nil, List.append_nil,
    List.length_append, List.length_flatMap]
  rw [sum_map_length_const nw 4 _ (fun wd => by simp),
    sum_map_length_const nw 4 _ (fun wd => by simp),
    sum_map_length_const nw 4 _ (fun wd => by simp),
    sum_map_length_const nw 4 _ (fun wd => by simp),
    sum_map_length_const nw 4 _ (fun wd => by simp)]
  ring

lemma bFeatureList_length (nw : ℕ) : (bFeatureList nw).length = nw * 4 ^ 2 := by
  rw [bFeatureList]
  simp only [bFeaturePos, List.flatMap_cons, List.flatMap_nil, List.append_nil,
    List.length_flatMap]
  rw [sum_map_length_const nw 16 _ (fun wd => by
    rw [List.length_flatMap]
    rw [sum_map_length_const 4 4 _ (fun t1 => by simp)])]
  ring

lemma findIdx?_eq_some_iff_getElem? {α : Type} [DecidableEq α] :
    ∀ (l : List α), l.Nodup → ∀ (a : α) (k : ℕ),
      (l.findIdx? fun g => decide (g = a)) = some k ↔ l[k]? = some a := by
  intro l
  induction l with
  | nil =>
    intro _ a k
    simp
  | cons x xs ih =>
    intro hnd a k
    obtain ⟨hx, hxs⟩ := List.nodup_cons.mp hnd
    rw [List.findIdx?_cons]
    by_cases hxa : x = a
    · subst hxa
      rw [if_pos (by simp)]
      constructor
      · intro h
        cases h
        simp
      · intro h
        cases k with
        | zero => simp
        | succ j =>
          exfalso
          rw [List.getElem?_cons_succ] at h
          exact hx (mem_of_getElem?_some h)
    · rw [if_neg (by simp [hxa]), List.findIdx?_succ]
      cases k with
      | zero =>
        simp [Option.map_eq_some', hxa]
      | succ j =>
        rw [List.getElem?_cons_succ, ← ih hxs a j, Option.map_eq_some']
        constructor
        · rintro ⟨i, hi, hij⟩
          have : i = j := by omega
          rw [← this]
          exact hi
        · intro h
          exact ⟨j, h, rfl⟩

/-- Claim C8: after enumerating the FeatureSpace over an `nw`-word
vocabulary, `feature_index` and `index_feature` are mutually inverse, the
assigned ids are exactly `{0, ..., nfeatures - 1}`, every unigram feature
has a lower id than every bigram feature, and
`nfeatures = 5·nwords·ntags + nwords·ntags²`. -/
theorem c8_feature_enumeration (nw : ℕ) :
    (∀ (f : Feature) (k : ℕ),
      feature_index nw f = some k ↔ index_feature nw k = some f) ∧
    (∀ k : ℕ, (∃ f, index_feature nw k = some f) ↔ k < nfeatures nw) ∧
    (∀ (k k' : ℕ) (pos pos' : ℤ) (wd t wd' t1 t2 : ℕ),
      index_feature nw k = some (Feature.U pos wd t) →
      index_feature nw k' = some (Feature.B pos' wd' t1 t2) → k < k') ∧
    nfeatures nw = 5 * nw * ntags + nw * ntags ^ 2 := by
  refine ⟨?_, ?_, ?_, ?_⟩
  · intro f k
    rw [feature_index, index_feature]
    exact findIdx?_eq_some_iff_getElem? _ (featureList_nodup nw) f k
  · intro k
    rw [index_feature, nfeatures]
    constructor
    · rintro ⟨f, hf⟩
      exact (List.getElem?_eq_some_iff.mp hf).1
    · intro hk
      exact ⟨(featureList nw)[k], List.getElem?_eq_some_iff.mpr ⟨hk, rfl⟩⟩
  · intro k k' pos pos' wd t wd' t1 t2 hU hB
    have hk : k < (uFeatureList nw).length := by
      by_contra hge
      push_neg at hge
      rw [index_feature, featureList, List.getElem?_append_right hge] at hU
      obtain ⟨pos2, wd2, t12, t22, heq⟩ :=
        bFeatureList_all_B nw _ (mem_of_getElem?_some hU)
      cases heq
    have hk' : (uFeatureList nw).length ≤ k' := by
      by_contra hlt
      push_neg at hlt
      rw [index_feature, featureList, List.getElem?_append, if_pos hlt] at hB
      obtain ⟨pos2, wd2, t2', heq⟩ :=
        uFeatureList_all_U nw _ (mem_of_getElem?_some hB)
      cases heq
    omega
  · rw [nfeatures, featureList, List.length_append, uFeatureList_length,
      bFeatureList_length, ntags]


/-- Witness for C8 over the 3-word vocabulary: the bigram `('B',0,2,0,0)`
maps to id 92 both ways, and `nfeatures 3 = 5·3·4 + 3·4²`. -/
theorem c8_feature_enumeration_witness :
    (feature_index 3 (Feature.B 0 2 0 0) = some 92 ↔
      index_feature 3 92 = some (Feature.B 0 2 0 0)) ∧
    nfeatures 3 = 5 * 3 * ntags + 3 * ntags ^ 2 :=
  ⟨(c8_feature_enumeration 3).1 (Feature.B 0 2 0 0) 92,
    (c8_feature_enumeration 3).2.2.2⟩


lemma mapM_eq_some_iff {α β : Type} (g : α → Option β) :
    ∀ (l : List α) (r : List β),
      l.mapM g = some r ↔ List.Forall₂ (fun a b => g a = some b) l r := by
  intro l
  induction l with
  | nil =>
    intro r
    rw [← List.mapM'_eq_mapM]
    constructor
    · intro h
      cases h
      exact List.Forall₂.nil
    · intro h
      cases h
      rfl
  | cons a t ih =>
    intro r
    rw [← List.mapM'_eq_mapM]
    simp only [List.mapM']
    constructor
    · intro h
      cases hga : g a with
      | none => rw [hga] at h; simp at h
      | some b =>
        rw [hga] at h
        cases hgt : t.mapM g with
        | none =>
          rw [← List.mapM'_eq_mapM] at hgt
          rw [hgt] at h
          simp at h
        | some bs =>
          have hgt' := hgt
          rw [← List.mapM'_eq_mapM] at hgt'
          rw [hgt'] at h
          simp only [Option.bind_eq_bind, Option.some_bind] at h
          cases h
          exact List.Forall₂.cons hga ((ih bs).mp hgt)
    · intro h
      cases h with
      | cons hab htail =>
        rename_i b bs
        rw [hab]
        have hsome := (ih bs).mpr htail
        rw [← List.mapM'_eq_mapM] at hsome
        rw [hsome]
        simp

lemma forall2_mem_right {α β : Type} (R : α → β → Prop) :
    ∀ {l : List α} {r : List β}, List.Forall₂ R l r → ∀ b ∈ r, ∃ a ∈ l, R a b := by
  intro l r h
  induction h with
  | nil => intro b hb; simp at hb
  | cons hab htail ih =>
    intro b hb
    rcases List.mem_cons.mp hb with rfl | hb'
    · exact ⟨_, List.mem_cons_self _ _, hab⟩
    · obtain ⟨a', ha', hR⟩ := ih b hb'
      exact ⟨a', List.mem_cons_of_mem _ ha', hR⟩

lemma forall2_mem_left {α β : Type} (R : α → β → Prop) :
    ∀ {l : List α} {r : List β}, List.Forall₂ R l r → ∀ a ∈ l, ∃ b ∈ r, R a b := by
  intro l r h
  induction h with
  | nil => intro a ha; simp at ha
  | cons hab htail ih =>
    intro a ha
    rcases List.mem_cons.mp ha with rfl | ha'
    · exact ⟨_, List.mem_cons_self _ _, hab⟩
    · obtain ⟨b', hb', hR⟩ := ih a ha'
      exact ⟨b', List.mem_cons_of_mem _ hb', hR⟩

lemma forall2_nodup {α β : Type} (R : α → β → Prop)
    (hinj : ∀ a a' b, R a b → R a' b → a = a') :
    ∀ {l : List α} {r : List β}, List.Forall₂ R l r → l.Nodup → r.Nodup := by
  intro l r h
  induction h with
  | nil => intro _; exact List.nodup_nil
  | cons hab htail ih =>
    rename_i a b l' r'
    intro hnd
    obtain ⟨hal, hl⟩ := List.nodup_cons.mp hnd
    rw [List.nodup_cons]
    refine ⟨?_, ih hl⟩
    intro hbr
    obtain ⟨a', ha', hR⟩ := forall2_mem_right R htail b hbr
    rw [hinj a' a b hR hab] at ha'
    exact hal ha'


lemma feature_index_iff (nw : ℕ) (f : Feature) (k : ℕ) :
    feature_index nw f = some k ↔ index_feature nw k = some f := by
  rw [feature_index, index_feature]
  exact findIdx?_eq_some_iff_getElem? _ (featureList_nodup nw) f k

lemma activeKeysU_nodup (x : List ℕ) (yi i : ℕ) : (activeKeysU x yi i).Nodup := by
  rw [activeKeysU]
  apply List.Nodup.map
  · intro a b h
    injection h
  · exact List.Nodup.filter _ (by decide)

lemma activeKeysB_nodup (x : List ℕ) (yi_1 yi i : ℕ) :
    (activeKeysB x yi_1 yi i).Nodup := by
  rw [activeKeysB]
  apply List.Nodup.map
  · intro a b h
    injection h
  · exact List.Nodup.filter _ (by decide)

lemma activeKeys_nodup (x : List ℕ) (yi_1 yi i : ℕ) :
    (activeKeys x yi_1 yi i).Nodup := by
  rw [activeKeys]
  refine (activeKeysU_nodup x yi i).append (activeKeysB_nodup x yi_1 yi i) ?_
  rw [List.disjoint_left]
  intro f hf hf'
  rw [activeKeysU, List.mem_map] at hf
  rw [activeKeysB, List.mem_map] at hf'
  obtain ⟨pos, _, rfl⟩ := hf
  obtain ⟨pos', _, heq⟩ := hf'
  cases heq

lemma feature_at_zero_or_one (nw k : ℕ) (x : List ℕ) (yi_1 yi i : ℕ) :
    feature_at nw k x yi_1 yi i = 0 ∨ feature_at nw k x yi_1 yi i = 1 := by
  rw [feature_at]
  cases index_feature nw k with
  | none => exact Or.inl rfl
  | some f =>
    cases f with
    | U pos word tag =>
      by_cases h : 0 ≤ pos + (i : ℤ) ∧ pos + (i : ℤ) ≤ (x.length : ℤ) - 1 ∧
          yi = tag ∧ x.getD (pos + (i : ℤ)).toNat 0 = word
      · exact Or.inr (if_pos h)
      · exact Or.inl (if_neg h)
    | B pos word tag1 tag2 =>
      by_cases h : 1 ≤ pos + (i : ℤ) ∧ x.getD (pos + (i : ℤ)).toNat 0 = word ∧
          yi_1 = tag1 ∧ yi = tag2
      · exact Or.inr (if_pos h)
      · exact Or.inl (if_neg h)


lemma fired_iff_active (nw : ℕ) (x : List ℕ) (yi_1 yi i k : ℕ)
    (hi1 : 1 ≤ i) (hi2 : i ≤ x.length - 1) (hk : k < nfeatures nw) :
    feature_at nw k x yi_1 yi i = 1 ↔
      ∃ f ∈ activeKeys x yi_1 yi i, feature_index nw f = some k := by
  obtain ⟨fk, hfk⟩ : ∃ f, index_feature nw k = some f :=
    ⟨(featureList nw)[k], List.getElem?_eq_some_iff.mpr ⟨hk, rfl⟩⟩
  have hlen2 : 2 ≤ x.length := by omega
  have hfkmem : fk ∈ featureList nw := mem_of_getElem?_some hfk
  cases fk with
  | U pos word tag =>
    have hval : feature_at nw k x yi_1 yi i =
        if 0 ≤ pos + (i : ℤ) ∧ pos + (i : ℤ) ≤ (x.length : ℤ) - 1 ∧ yi = tag ∧
            x.getD (pos + (i : ℤ)).toNat 0 = word then 1 else 0 := by
      rw [feature_at, hfk]
    obtain ⟨hpos, -, -⟩ := (U_mem_featureList nw pos word tag).mp hfkmem
    rw [hval]
    constructor
    · intro hfire
      by_cases hc : 0 ≤ pos + (i : ℤ) ∧ pos + (i : ℤ) ≤ (x.length : ℤ) - 1 ∧
          yi = tag ∧ x.getD (pos + (i : ℤ)).toNat 0 = word
      · obtain ⟨hc1, hc2, hc3, hc4⟩ := hc
        refine ⟨Feature.U pos (x.getD (pos + (i : ℤ)).toNat 0) yi, ?_, ?_⟩
        · rw [activeKeys, List.mem_append]
          left
          rw [activeKeysU, List.mem_map]
          refine ⟨pos, ?_, rfl⟩
          rw [List.mem_filter, decide_eq_true_eq]
          exact ⟨hpos, hc1, by omega⟩
        · rw [hc4, hc3]
          exact (feature_index_iff nw _ k).mpr hfk
      · rw [if_neg hc] at hfire
        exact absurd hfire (by norm_num)
    · rintro ⟨f, hf, hidx⟩
      have hfeq : f = Feature.U pos word tag := by
        have h' := (feature_index_iff nw f k).mp hidx
        rw [h'] at hfk
        exact Option.some_inj.mp hfk
      subst hfeq
      rw [activeKeys, List.mem_append] at hf
      rcases hf with hf | hf
      · rw [activeKeysU, List.mem_map] at hf
        obtain ⟨pos', hpos', heq⟩ := hf
        rw [List.mem_filter, decide_eq_true_eq] at hpos'
        obtain ⟨-, hd1, hd2⟩ := hpos'
        injection heq with e1 e2 e3
        subst e1
        rw [if_pos ⟨hd1, by omega, e3, e2⟩]
      · rw [activeKeysB, List.mem_map] at hf
        obtain ⟨pos', -, heq⟩ := hf
        cases heq
  | B pos word tag1 tag2 =>
    have hval : feature_at nw k x yi_1 yi i =
        if 1 ≤ pos + (i : ℤ) ∧ x.getD (pos + (i : ℤ)).toNat 0 = word ∧
            yi_1 = tag1 ∧ yi = tag2 then 1 else 0 := by
      rw [feature_at, hfk]
    obtain ⟨hpos, -, -, -⟩ := (B_mem_featureList nw pos word tag1 tag2).mp hfkmem
    have hpos0 : pos = 0 := by
      rw [bFeaturePos, List.mem_singleton] at hpos
      exact hpos
    rw [hval]
    constructor
    · intro hfire
      by_cases hc : 1 ≤ pos + (i : ℤ) ∧ x.getD (pos + (i : ℤ)).toNat 0 = word ∧
          yi_1 = tag1 ∧ yi = tag2
      · obtain ⟨hc1, hc2, hc3, hc4⟩ := hc
        refine ⟨Feature.B pos (x.getD (pos + (i : ℤ)).toNat 0) yi_1 yi, ?_, ?_⟩
        · rw [activeKeys, List.mem_append]
          right
          rw [activeKeysB, List.mem_map]
          refine ⟨pos, ?_, rfl⟩
          rw [List.mem_filter, decide_eq_true_eq]
          refine ⟨hpos, hc1, ?_⟩
          rw [hpos0]
          omega
        · rw [hc2, hc3, hc4]
          exact (feature_index_iff nw _ k).mpr hfk
      · rw [if_neg hc] at hfire
        exact absurd hfire (by norm_num)
    · rintro ⟨f, hf, hidx⟩
      have hfeq : f = Feature.B pos word tag1 tag2 := by
        have h' := (feature_index_iff nw f k).mp hidx
        rw [h'] at hfk
        exact Option.some_inj.mp hfk
      subst hfeq
      rw [activeKeys, List.mem_append] at hf
      rcases hf with hf | hf
      · rw [activeKeysU, List.mem_map] at hf
        obtain ⟨pos', -, heq⟩ := hf
        cases heq
      · rw [activeKeysB, List.mem_map] at hf
        obtain ⟨pos', hpos', heq⟩ := hf
        rw [List.mem_filter, decide_eq_true_eq] at hpos'
        obtain ⟨-, hd1, hd2⟩ := hpos'
        injection heq with e1 e2 e3 e4
        subst e1
        rw [if_pos ⟨hd1, e2, e3, e4⟩]


/-- Claim C10: once the FeatureSpace is fully enumerated, for every
in-vocabulary sequence, valid tag pair and position `1 ≤ i ≤ len(x) - 1`,
the active-feature-list computation `log_potential_at` returns exactly the
indicator-based reference sum `Σ_k weights[k] · feature_at(k, x, yi_1, yi, i)`
over all feature ids. -/
theorem c10_log_potential_refinement (nw : ℕ) (w : ℕ → ℝ) (x : List ℕ)
    (yi_1 yi i : ℕ) (hx : ∀ a ∈ x, a < nw) (h1 : yi_1 < 4) (h2 : yi < 4)
    (hi1 : 1 ≤ i) (hi2 : i ≤ x.length - 1) :
    log_potential_at nw w x yi_1 yi i =
      some (∑ k ∈ Finset.range (nfeatures nw),
        w k * (feature_at nw k x yi_1 yi i : ℝ)) := by
  have hsome : (activeIds nw x yi_1 yi i).isSome := by
    rw [activeIds]
    exact mapM_isSome _ _ fun a ha =>
      feature_index_isSome_of_mem nw a
        (activeKeys_subset nw x yi_1 yi i hx h1 h2 a ha)
  obtain ⟨ids, hids⟩ := Option.isSome_iff_exists.mp hsome
  have hfa : List.Forall₂ (fun f b => feature_index nw f = some b)
      (activeKeys x yi_1 yi i) ids := by
    rw [activeIds] at hids
    exact (mapM_eq_some_iff _ _ _).mp hids
  have hnd : ids.Nodup := by
    refine forall2_nodup _ ?_ hfa (activeKeys_nodup x yi_1 yi i)
    intro f f' b hb hb'
    have hb2 := (feature_index_iff nw f b).mp hb
    have hb2' := (feature_index_iff nw f' b).mp hb'
    rw [hb2] at hb2'
    exact Option.some_inj.mp hb2'
  have hmem : ∀ k, k ∈ ids ↔
      ∃ f ∈ activeKeys x yi_1 yi i, feature_index nw f = some k := by
    intro k
    constructor
    · intro hk
      exact forall2_mem_right _ hfa k hk
    · rintro ⟨f, hf, hidx⟩
      obtain ⟨b, hb, hRb⟩ := forall2_mem_left _ hfa f hf
      rw [hidx] at hRb
      rw [Option.some_inj.mp hRb]
      exact hb
  have hsub : ∀ k ∈ ids, k < nfeatures nw := by
    intro k hk
    obtain ⟨f, hf, hidx⟩ := (hmem k).mp hk
    have hIdx := (feature_index_iff nw f k).mp hidx
    rw [index_feature] at hIdx
    exact (List.getElem?_eq_some_iff.mp hIdx).1
  rw [log_potential_at, hids, Option.map_some']
  congr 1
  have hind : ∀ k ∈ Finset.range (nfeatures nw),
      w k * (feature_at nw k x yi_1 yi i : ℝ) =
        if k ∈ ids.toFinset then w k else 0 := by
    intro k hkr
    rw [Finset.mem_range] at hkr
    by_cases hkin : k ∈ ids
    · rw [if_pos (List.mem_toFinset.mpr hkin),
        (fired_iff_active nw x yi_1 yi i k hi1 hi2 hkr).mpr ((hmem k).mp hkin)]
      norm_num
    · rw [if_neg fun hc => hkin (List.mem_toFinset.mp hc)]
      rcases feature_at_zero_or_one nw k x yi_1 yi i with h | h
      · rw [h]
        norm_num
      · exact absurd
          ((hmem k).mpr ((fired_iff_active nw x yi_1 yi i k hi1 hi2 hkr).mp h))
          hkin
  rw [Finset.sum_congr rfl hind, Finset.sum_ite_mem]
  have hinter : Finset.range (nfeatures nw) ∩ ids.toFinset = ids.toFinset := by
    apply Finset.inter_eq_right.mpr
    intro k hk
    rw [Finset.mem_range]
    exact hsub k (List.mem_toFinset.mp hk)
  rw [hinter, List.sum_toFinset _ hnd]

/-- Witness for C10 at the one-token sequence `[0, 2, 1]` over a 3-word
vocabulary with zero weights, transition `(3, 0)` at position 1. -/
theorem c10_log_potential_refinement_witness :
    (∀ a ∈ ([0, 2, 1] : List ℕ), a < 3) ∧
    log_potential_at 3 (fun _ => (0 : ℝ)) [0, 2, 1] 3 0 1 =
      some (∑ k ∈ Finset.range (nfeatures 3),
        (fun _ => (0 : ℝ)) k * (feature_at 3 k [0, 2, 1] 3 0 1 : ℝ)) :=
  ⟨by decide,
    c10_log_potential_refinement 3 (fun _ => 0) [0, 2, 1] 3 0 1 (by decide)
      (by decide) (by decide) (by decide) (by decide)⟩


/-- Claim C2 evaluated at a failing input (code bug): with zero weights on
the one-token sequence `[0, 2, 1]`, the table entry `P[1, 0, 0]` — at the
boundary position `i = 1` with `tagPrev = 0 ≠ start_index = 3` — equals
`exp(0) = 1`, not 0 as the claim's boundary rule states: the `continue`
leaves the log-entry at 0 and `P = np.exp(P)` then turns it into 1. -/
theorem c2_boundary_bug :
    Pmat 3 (fun _ => (0 : ℝ)) [0, 2, 1] 1 0 0 = 1 ∧ (1 : ℝ) ≠ 0 := by
  constructor
  · rw [Pmat, if_neg (by decide)]
    exact Real.exp_zero
  · norm_num

lemma gradStep_foldl_mem (nw : ℕ) (w : ℕ → ℝ) (x : List ℕ) (f : ℕ) :
    ∀ (ts : List (ℕ × ℕ × ℕ)) (st : List ℕ × (ℕ → ℝ)), f ∈ st.1 →
      (List.foldl (gradStep nw w x) st ts).2 f =
        st.2 f + (ts.map fun iab => Pmat nw w x iab.1 iab.2.1 iab.2.2).sum := by
  intro ts
  induction ts with
  | nil =>
    intro st hf
    simp
  | cons t ts ih =>
    intro st hf
    rw [List.foldl_cons]
    have h1 : (gradStep nw w x st t).1 =
        st.1 ++ (activeIds nw x t.2.1 t.2.2 t.1).getD [] := rfl
    have h2 : (gradStep nw w x st t).2 f = st.2 f +
        (if f ∈ st.1 ++ (activeIds nw x t.2.1 t.2.2 t.1).getD []
          then Pmat nw w x t.1 t.2.1 t.2.2 else 0) := rfl
    rw [ih (gradStep nw w x st t) (by rw [h1]; exact List.mem_append_left _ hf)]
    rw [h2, if_pos (List.mem_append_left _ hf)]
    simp only [List.map_cons, List.sum_cons]
    ring


set_option maxHeartbeats 1000000 in
/-- Claim C3 evaluated at a failing input (code bug): with zero weights on
the one-token sequence `[0, 2, 1]`, the per-sequence expected-count slot of
feature 92 — the bigram `('B', 0, 2, 0, 0)`, active only at the transition
`(i, tagPrev, tagCur) = (1, 0, 0)` — receives 13, not the sum of
`P[i, tagPrev, tagCur]` over its active transitions (0 per the claim's
boundary-zeroed table, 1 with the code's table): `activate_feature` is
never reset inside the loops, so the slot also absorbs the P value of
every later transition (12 entries worth 1 and 4 worth 1/4). -/
theorem c3_gradient_accumulation_bug :
    model_gradient_x 3 (fun _ => (0 : ℝ)) [0, 2, 1] 92 = 13 := by
  have hM : ∀ i a b,
      log_potential_matrix 3 (fun _ => (0 : ℝ)) [0, 2, 1] i a b = 0 := by
    intro i a b
    rw [log_potential_matrix]
    split
    · rw [log_potential_at]
      cases h' : activeIds 3 [0, 2, 1] a b i with
      | none => rfl
      | some ids => simp
    · rfl
  have halpha : ∀ t,
      log_alpha (log_potential_matrix 3 (fun _ => (0 : ℝ)) [0, 2, 1]) 1 t =
        log_potential_matrix 3 (fun _ => (0 : ℝ)) [0, 2, 1] 1 3 t := fun t => rfl
  have hz : log_z (log_potential_matrix 3 (fun _ => (0 : ℝ)) [0, 2, 1]) 1 =
      Real.log 4 := by
    rw [log_z, lse4]
    have hvec : vec4 (fun t =>
        log_alpha (log_potential_matrix 3 (fun _ => (0 : ℝ)) [0, 2, 1]) 1 t +
          log_potential_matrix 3 (fun _ => (0 : ℝ)) [0, 2, 1] (1 + 1) t endIdx) =
        [0, 0, 0, 0] := by
      simp only [vec4, halpha, hM]
      norm_num
    rw [hvec, log_sum_exp]
    have hm : listMax [(0 : ℝ), 0, 0, 0] = 0 := by simp [listMax]
    rw [hm]
    norm_num [Real.exp_zero]
  have hbeta : ∀ b,
      log_beta (log_potential_matrix 3 (fun _ => (0 : ℝ)) [0, 2, 1]) 1 1 b = 0 := by
    intro b
    rw [log_beta, if_pos (Or.inl rfl)]
    exact hM 2 b 3
  have hP : ∀ a b, Pmat 3 (fun _ => (0 : ℝ)) [0, 2, 1] 1 a b =
      if a = 3 then (4 : ℝ)⁻¹ else 1 := by
    intro a b
    by_cases ha : a = 3
    · subst ha
      rw [if_pos rfl, Pmat, if_pos (by decide)]
      rw [show ((1 : ℕ) - 1) = 0 from rfl]
      rw [show (([0, 2, 1] : List ℕ).length - 2) = 1 from rfl]
      rw [show log_alpha
        (log_potential_matrix 3 (fun _ => (0 : ℝ)) [0, 2, 1]) 0 3 = 0 from rfl]
      rw [hM 1 3 b, hbeta b, hz]
      rw [show (0 : ℝ) + 0 + 0 - Real.log 4 = -(Real.log 4) by ring]
      rw [Real.exp_neg, Real.exp_log (by norm_num)]
    · rw [if_neg ha, Pmat, if_neg (fun hcond => hcond.2 ⟨rfl, ha⟩)]
      exact Real.exp_zero
  rw [model_gradient_x]
  rw [show (([0, 2, 1] : List ℕ).length - 2) = 1 from rfl]
  rw [show gradTriples 1 =
    [(1, 0, 0), (1, 0, 1), (1, 0, 2), (1, 0, 3),
     (1, 1, 0), (1, 1, 1), (1, 1, 2), (1, 1, 3),
     (1, 2, 0), (1, 2, 1), (1, 2, 2), (1, 2, 3),
     (1, 3, 0), (1, 3, 1), (1, 3, 2), (1, 3, 3)] from by decide]
  rw [List.foldl_cons]
  have h92 : (92 : ℕ) ∈ (gradStep 3 (fun _ => (0 : ℝ)) [0, 2, 1]
      (([] : List ℕ), fun _ => (0 : ℝ)) (1, 0, 0)).1 := by
    show 92 ∈ ([] : List ℕ) ++ (activeIds 3 [0, 2, 1] 0 0 1).getD []
    rw [show (activeIds 3 [0, 2, 1] 0 0 1).getD [] = [12, 32, 40, 92] from by decide]
    decide
  rw [gradStep_foldl_mem 3 (fun _ => (0 : ℝ)) [0, 2, 1] 92 _ _ h92]
  have hfirst : (gradStep 3 (fun _ => (0 : ℝ)) [0, 2, 1]
      (([] : List ℕ), fun _ => (0 : ℝ)) (1, 0, 0)).2 92 =
      Pmat 3 (fun _ => (0 : ℝ)) [0, 2, 1] 1 0 0 := by
    show (0 : ℝ) +
      (if (92 : ℕ) ∈ ([] : List ℕ) ++ (activeIds 3 [0, 2, 1] 0 0 1).getD []
        then Pmat 3 (fun _ => (0 : ℝ)) [0, 2, 1] 1 0 0 else 0) = _
    rw [if_pos (by
      rw [show (([] : List ℕ) ++ (activeIds 3 [0, 2, 1] 0 0 1).getD []) =
        [12, 32, 40, 92] from by decide]
      decide)]
    ring
  rw [hfirst]
  simp only [List.map_cons, List.map_nil, List.sum_cons, List.sum_nil, hP]
  norm_num


lemma le_max4 (g : ℕ → ℝ) : ∀ u < 4, g u ≤ max4 g := by
  intro u hu
  rw [max4]
  interval_cases u
  · exact le_max_of_le_left (le_max_of_le_left (le_max_left _ _))
  · exact le_max_of_le_left (le_max_of_le_left (le_max_right _ _))
  · exact le_max_of_le_left (le_max_right _ _)
  · exact le_max_right _ _

lemma max4_choice (g : ℕ → ℝ) :
    g 0 = max4 g ∨ g 1 = max4 g ∨ g 2 = max4 g ∨ g 3 = max4 g := by
  rw [max4]
  rcases max_choice (max (max (g 0) (g 1)) (g 2)) (g 3) with h | h
  · rw [h]
    rcases max_choice (max (g 0) (g 1)) (g 2) with h' | h'
    · rw [h']
      rcases max_choice (g 0) (g 1) with h'' | h''
      · exact Or.inl h''.symm
      · exact Or.inr (Or.inl h''.symm)
    · exact Or.inr (Or.inr (Or.inl h'.symm))
  · exact Or.inr (Or.inr (Or.inr h.symm))

lemma argmax4_spec (g : ℕ → ℝ) : isFirstArgmax4 g (argmax4 g) := by
  have hub := le_max4 g
  have hattain : g (argmax4 g) = max4 g := by
    rw [argmax4]
    by_cases h0 : g 0 = max4 g
    · rwa [if_pos h0]
    · rw [if_neg h0]
      by_cases h1 : g 1 = max4 g
      · rwa [if_pos h1]
      · rw [if_neg h1]
        by_cases h2 : g 2 = max4 g
        · rwa [if_pos h2]
        · rw [if_neg h2]
          rcases max4_choice g with h | h | h | h
          · exact absurd h h0
          · exact absurd h h1
          · exact absurd h h2
          · exact h
  have hlt : argmax4 g < 4 := by
    rw [argmax4]
    split
    · norm_num
    · split
      · norm_num
      · split
        · norm_num
        · norm_num
  refine ⟨hlt, ?_, ?_⟩
  · intro u hu
    rw [hattain]
    exact hub u hu
  · intro u hu hmax
    have humax : g u = max4 g := le_antisymm (hub u hu) ?later
    case later =>
      rcases max4_choice g with h | h | h | h
      · rw [← h]; exact hmax 0 (by norm_num)
      · rw [← h]; exact hmax 1 (by norm_num)
      · rw [← h]; exact hmax 2 (by norm_num)
      · rw [← h]; exact hmax 3 (by norm_num)
    rw [argmax4]
    by_cases h0 : g 0 = max4 g
    · rw [if_pos h0]
      omega
    · rw [if_neg h0]
      have hu0 : u ≠ 0 := fun h => h0 (h ▸ humax)
      by_cases h1 : g 1 = max4 g
      · rw [if_pos h1]
        omega
      · rw [if_neg h1]
        have hu1 : u ≠ 1 := fun h => h1 (h ▸ humax)
        by_cases h2 : g 2 = max4 g
        · rw [if_pos h2]
          omega
        · rw [if_neg h2]
          have hu2 : u ≠ 2 := fun h => h2 (h ▸ humax)
          omega

lemma argmax4_attain (g : ℕ → ℝ) : g (argmax4 g) = max4 g := by
  have hspec := argmax4_spec g
  refine le_antisymm (le_max4 g _ hspec.1) ?_
  rcases max4_choice g with h | h | h | h
  · rw [← h]; exact hspec.2.1 0 (by norm_num)
  · rw [← h]; exact hspec.2.1 1 (by norm_num)
  · rw [← h]; exact hspec.2.1 2 (by norm_num)
  · rw [← h]; exact hspec.2.1 3 (by norm_num)


lemma delta_ge_path (M : ℕ → ℕ → ℕ → ℝ) :
    ∀ (i : ℕ) (p : List ℕ) (t : ℕ), t < 4 → p ∈ allPaths i →
      transSum M 1 startIdx (p ++ [t]) ≤ log_delta M (i + 1) t := by
  intro i
  induction i with
  | zero =>
    intro p t ht hp
    simp only [allPaths, List.mem_singleton] at hp
    subst hp
    show M 1 startIdx t + transSum M 2 t [] ≤ M 1 startIdx t
    simp [transSum]
  | succ i ih =>
    intro p t ht hp
    rw [allPaths, List.mem_flatMap] at hp
    obtain ⟨q, hq, hp⟩ := hp
    simp only [List.mem_map, List.mem_range] at hp
    obtain ⟨u, hu, rfl⟩ := hp
    have hqlen : q.length = i := length_of_mem_allPaths i q hq
    have hconcat := transSum_concat M (q ++ [u]) 1 startIdx t
    rw [hconcat, List.getLastD_concat]
    have hlen : 1 + (q ++ [u]).length = i + 2 := by
      simp [hqlen]
      omega
    rw [hlen]
    have hstep : transSum M 1 startIdx (q ++ [u]) ≤ log_delta M (i + 1) u :=
      ih q u hu hq
    have hmax : log_delta M (i + 1) u + M (i + 2) u t ≤
        max4 (fun v => log_delta M (i + 1) v + M (i + 2) v t) :=
      le_max4 (fun v => log_delta M (i + 1) v + M (i + 2) v t) u hu
    calc transSum M 1 startIdx (q ++ [u]) + M (i + 2) u t
        ≤ log_delta M (i + 1) u + M (i + 2) u t := by linarith
      _ ≤ max4 (fun v => log_delta M (i + 1) v + M (i + 2) v t) := hmax
      _ = log_delta M (i + 1 + 1) t := rfl

lemma delta_attain (M : ℕ → ℕ → ℕ → ℝ) (i t : ℕ) :
    log_delta M (i + 2) t =
      log_delta M (i + 1) (vtrace M (i + 2) t) +
        M (i + 2) (vtrace M (i + 2) t) t := by
  have h := argmax4_attain (fun u => log_delta M (i + 1) u + M (i + 2) u t)
  have hv : vtrace M (i + 2) t =
      argmax4 (fun u => log_delta M (i + 1) u + M (i + 2) u t) := rfl
  rw [hv]
  exact h.symm

lemma btrace_lt4 (M : ℕ → ℕ → ℕ → ℝ) (n : ℕ) : ∀ k, btrace M n k < 4 := by
  intro k
  cases k with
  | zero => exact (argmax4_spec (log_delta M n)).1
  | succ k =>
    show vtrace M (n - k) (btrace M n k) < 4
    rw [vtrace]
    exact (argmax4_spec _).1

lemma btrace_telescope (M : ℕ → ℕ → ℕ → ℝ) (n : ℕ) (hn : 1 ≤ n) :
    ∀ k, k ≤ n - 1 →
      log_delta M n (btrace M n 0) =
        log_delta M (n - k) (btrace M n k) +
          transSum M (n - k + 1) (btrace M n k) (tagsFrom M n k) := by
  intro k
  induction k with
  | zero =>
    intro _
    simp [tagsFrom, transSum]
  | succ k ih =>
    intro hk
    have hk' : k ≤ n - 1 := by omega
    rw [ih hk']
    obtain ⟨i, hi⟩ : ∃ i, n - k = i + 2 := ⟨n - k - 2, by omega⟩
    have h1 : n - (k + 1) = i + 1 := by omega
    have h2 : btrace M n (k + 1) = vtrace M (n - k) (btrace M n k) := rfl
    have h3 : tagsFrom M n (k + 1) = btrace M n k :: tagsFrom M n k := rfl
    have h4 : transSum M (n - (k + 1) + 1) (btrace M n (k + 1))
        (btrace M n k :: tagsFrom M n k) =
        M (n - (k + 1) + 1) (btrace M n (k + 1)) (btrace M n k) +
          transSum M (n - (k + 1) + 1 + 1) (btrace M n k) (tagsFrom M n k) := rfl
    have h5 : n - (k + 1) + 1 = n - k := by omega
    rw [h3, h4, h5, h2, h1, hi, delta_attain M i (btrace M n k)]
    ring


lemma viterbiTags_eq_tagsFrom (M : ℕ → ℕ → ℕ → ℝ) (n : ℕ) :
    viterbiTags M n = tagsFrom M n n := by
  rw [viterbiTags]
  have haux : ∀ m : ℕ, (List.range m).map (fun j => btrace M n (m - (j + 1))) =
      tagsFrom M n m := by
    intro m
    induction m with
    | zero => rfl
    | succ m ih =>
      rw [List.range_succ_eq_map, List.map_cons, List.map_map]
      have h0 : m + 1 - (0 + 1) = m := by omega
      have hfun : ((fun j => btrace M n (m + 1 - (j + 1))) ∘ Nat.succ) =
          fun j => btrace M n (m - (j + 1)) := by
        funext j
        simp only [Function.comp]
        congr 1
        omega
      rw [h0, hfun, ih]
      rfl
  exact haux n

lemma viterbi_score (M : ℕ → ℕ → ℕ → ℝ) (n : ℕ) (hn : 1 ≤ n) :
    transSum M 1 startIdx (viterbiTags M n) = log_delta M n (btrace M n 0) := by
  rw [viterbiTags_eq_tagsFrom]
  obtain ⟨m, rfl⟩ : ∃ m, n = m + 1 := ⟨n - 1, by omega⟩
  have h := btrace_telescope M (m + 1) hn m (by omega)
  have h1 : m + 1 - m = 1 := by omega
  rw [h1] at h
  have h2 : tagsFrom M (m + 1) (m + 1) =
      btrace M (m + 1) m :: tagsFrom M (m + 1) m := rfl
  rw [h2]
  have h3 : transSum M 1 startIdx (btrace M (m + 1) m :: tagsFrom M (m + 1) m) =
      M 1 startIdx (btrace M (m + 1) m) +
        transSum M 2 (btrace M (m + 1) m) (tagsFrom M (m + 1) m) := rfl
  have h4 : log_delta M 1 (btrace M (m + 1) m) =
      M 1 startIdx (btrace M (m + 1) m) := rfl
  rw [h3, h, h4]

lemma mem_allPaths_of : ∀ (n : ℕ) (p : List ℕ),
    p.length = n → (∀ t ∈ p, t < 4) → p ∈ allPaths n := by
  intro n
  induction n with
  | zero =>
    intro p hlen _
    rw [List.length_eq_zero] at hlen
    subst hlen
    simp [allPaths]
  | succ n ih =>
    intro p hlen hlt
    rcases List.eq_nil_or_concat p with rfl | ⟨q, t, rfl⟩
    · simp at hlen
    · rw [List.concat_eq_append] at *
      rw [allPaths, List.mem_flatMap]
      have hqlen : q.length = n := by
        simp at hlen
        omega
      refine ⟨q, ih q hqlen fun u hu => hlt u (List.mem_append_left _ hu), ?_⟩
      simp only [List.mem_map, List.mem_range]
      exact ⟨t, hlt t (List.mem_append_right _ (List.mem_singleton.mpr rfl)), rfl⟩


/-- Claim C5: for every sentinel-bracketed in-vocabulary sequence with
`1 ≤ n ≤ 4` tokens, the Viterbi decoder's path (i) has length `len(x) - 2`
(returned as symbolic tag characters via `index_tag`), (ii) is one of the
brute-force-enumerated `ntags^n` tag paths, (iii) achieves the maximum
unnormalized potential sum `Σ_{i=1..n} M[i, y[i-1], y[i]]` among all of
them, and (iv) every argmax — each backpointer `trace[i, tag]` and the
final-tag choice `argmax(delta[n])` — picks the lowest maximizing tag
index. -/
theorem c5_viterbi_optimality (nw : ℕ) (w : ℕ → ℝ) (body : List ℕ)
    (_hvocab : ∀ a ∈ body, a < nw) (_hnw : 2 ≤ nw)
    (hn1 : 1 ≤ body.length) (_hn4 : body.length ≤ 4) :
    (inference_viterbi nw w (0 :: body ++ [1])).length =
        (0 :: body ++ [1]).length - 2 ∧
    viterbiTags (log_potential_matrix nw w (0 :: body ++ [1])) body.length ∈
        allPaths body.length ∧
    (∀ p ∈ allPaths body.length,
      transSum (log_potential_matrix nw w (0 :: body ++ [1])) 1 startIdx p ≤
        transSum (log_potential_matrix nw w (0 :: body ++ [1])) 1 startIdx
          (viterbiTags (log_potential_matrix nw w (0 :: body ++ [1])) body.length)) ∧
    (∀ i, 2 ≤ i → i ≤ body.length → ∀ t < 4,
      isFirstArgmax4
        (fun u =>
          log_delta (log_potential_matrix nw w (0 :: body ++ [1])) (i - 1) u +
            log_potential_matrix nw w (0 :: body ++ [1]) i u t)
        (vtrace (log_potential_matrix nw w (0 :: body ++ [1])) i t)) ∧
    isFirstArgmax4
      (log_delta (log_potential_matrix nw w (0 :: body ++ [1])) body.length)
      (btrace (log_potential_matrix nw w (0 :: body ++ [1])) body.length 0) ∧
    inference_viterbi nw w (0 :: body ++ [1]) =
      (viterbiTags (log_potential_matrix nw w (0 :: body ++ [1]))
        body.length).map index_tag := by
  have hxlen : ((0 : ℕ) :: body ++ [1]).length - 2 = body.length := by
    simp
  refine ⟨?_, ?_, ?_, ?_, ?_, ?_⟩
  · rw [inference_viterbi, hxlen]
    simp [viterbiTags]
  · apply mem_allPaths_of
    · simp [viterbiTags]
    · intro t ht
      rw [viterbiTags] at ht
      simp only [List.mem_map, List.mem_range] at ht
      obtain ⟨j, _, rfl⟩ := ht
      exact btrace_lt4 _ _ _
  · intro p hp
    obtain ⟨m, hm⟩ : ∃ m, body.length = m + 1 := ⟨body.length - 1, by omega⟩
    rw [hm] at hp ⊢
    rw [allPaths, List.mem_flatMap] at hp
    obtain ⟨q, hq, hp⟩ := hp
    simp only [List.mem_map, List.mem_range] at hp
    obtain ⟨t, ht, rfl⟩ := hp
    have hub := delta_ge_path (log_potential_matrix nw w (0 :: body ++ [1]))
      m q t ht hq
    have hscore := viterbi_score (log_potential_matrix nw w (0 :: body ++ [1]))
      (m + 1) (by omega)
    rw [hscore]
    have hb0 : btrace (log_potential_matrix nw w (0 :: body ++ [1])) (m + 1) 0 =
        argmax4 (log_delta (log_potential_matrix nw w (0 :: body ++ [1]))
          (m + 1)) := rfl
    have hmaxat := (argmax4_spec
      (log_delta (log_potential_matrix nw w (0 :: body ++ [1])) (m + 1))).2.1 t ht
    rw [hb0]
    linarith
  · intro i h2i hin t ht
    rw [vtrace]
    exact argmax4_spec _
  · rw [show btrace (log_potential_matrix nw w (0 :: body ++ [1])) body.length 0 =
      argmax4 (log_delta (log_potential_matrix nw w (0 :: body ++ [1]))
        body.length) from rfl]
    exact argmax4_spec _
  · rw [inference_viterbi, hxlen]

/-- Witness for C5 at the one-token sequence `[0, 2, 1]` over a 3-word
vocabulary with zero weights. -/
theorem c5_viterbi_optimality_witness :
    (∀ a ∈ ([2] : List ℕ), a < 3) ∧
    ((inference_viterbi 3 (fun _ => (0 : ℝ)) (0 :: [2] ++ [1])).length =
        (0 :: [2] ++ [1] : List ℕ).length - 2 ∧
    viterbiTags (log_potential_matrix 3 (fun _ => (0 : ℝ)) (0 :: [2] ++ [1])) 1 ∈
        allPaths 1 ∧
    (∀ p ∈ allPaths 1,
      transSum (log_potential_matrix 3 (fun _ => (0 : ℝ)) (0 :: [2] ++ [1]))
          1 startIdx p ≤
        transSum (log_potential_matrix 3 (fun _ => (0 : ℝ)) (0 :: [2] ++ [1]))
          1 startIdx
          (viterbiTags (log_potential_matrix 3 (fun _ => (0 : ℝ))
            (0 :: [2] ++ [1])) 1)) ∧
    (∀ i, 2 ≤ i → i ≤ 1 → ∀ t < 4,
      isFirstArgmax4
        (fun u =>
          log_delta (log_potential_matrix 3 (fun _ => (0 : ℝ))
            (0 :: [2] ++ [1])) (i - 1) u +
            log_potential_matrix 3 (fun _ => (0 : ℝ)) (0 :: [2] ++ [1]) i u t)
        (vtrace (log_potential_matrix 3 (fun _ => (0 : ℝ)) (0 :: [2] ++ [1])) i t)) ∧
    isFirstArgmax4
      (log_delta (log_potential_matrix 3 (fun _ => (0 : ℝ)) (0 :: [2] ++ [1])) 1)
      (btrace (log_potential_matrix 3 (fun _ => (0 : ℝ)) (0 :: [2] ++ [1])) 1 0) ∧
    inference_viterbi 3 (fun _ => (0 : ℝ)) (0 :: [2] ++ [1]) =
      (viterbiTags (log_potential_matrix 3 (fun _ => (0 : ℝ))
        (0 :: [2] ++ [1])) 1).map index_tag) :=
  ⟨by decide,
    c5_viterbi_optimality 3 (fun _ => 0) [2] (by decide) (by norm_num)
      (by decide) (by decide)⟩

end LinearCRF
